import Mathlib

/-!
Verification of the restkit core: relation graph construction and queries
(shortest path via BFS, relation-path enumeration, relation-path validity),
the resource attribute-path resolver (nested objects, arrays, discriminated
one-of unions, TTL cache) and the attribute flag-setter discipline.

The development is a shallow embedding of the TypeScript sources:
  - packages/core/src/relations/graph.ts      (RelationGraph, first variant)
  - packages/core/src/relations/connector.ts  (RelationConnector, first variant)
  - the ResourcePathResolver source            (ResourcePathResolver)
  - packages/core/src/attributes/root.ts      (Attribute)
  - packages/core/src/cache/ephemeral-cache.ts (EphemeralCache)

JavaScript `Record<string, T>` objects are modelled as insertion-ordered
association lists (`List (String × T)`): property read is first-match lookup,
property write overwrites in place or appends, `Object.entries` iterates in
insertion order.  A JavaScript `Set` is modelled as a duplicate-free list in
insertion order.  Thrown errors are modelled with `Except String`; mutation of
a receiver is modelled by returning the updated receiver state.
-/

namespace RestKit

/-- Property read on a JavaScript object modelled as an association list:
first entry with the given key. -/
def recordGet {α : Type} (m : List (String × α)) (k : String) : Option α :=
  match m with
  | [] => none
  | (k', v) :: rest => if k' = k then some v else recordGet rest k

/-- Property write on a JavaScript object: overwrite the first entry with the
given key in place, or append a new entry. -/
def recordSet {α : Type} (m : List (String × α)) (k : String) (v : α) : List (String × α) :=
  match m with
  | [] => [(k, v)]
  | (k', v') :: rest => if k' = k then (k, v) :: rest else (k', v') :: recordSet rest k v

/-- Update the value at a key if present, leave the list unchanged otherwise.
Models `map.get(k)?.mutate(...)` on a JavaScript `Map` whose values are
mutated in place. -/
def recordModify {α : Type} (m : List (String × α)) (k : String) (f : α → α) :
    List (String × α) :=
  match m with
  | [] => []
  | (k', v) :: rest => if k' = k then (k', f v) :: rest else (k', v) :: recordModify rest k f

/-- JavaScript `Set.add`: append the element unless it is already present. -/
def setAdd (s : List String) (x : String) : List String :=
  if x ∈ s then s else s ++ [x]

theorem recordGet_recordSet_self {α : Type} (m : List (String × α)) (k : String) (v : α) :
    recordGet (recordSet m k v) k = some v := by
  induction m with
  | nil => simp [recordGet, recordSet]
  | cons p rest ih =>
    obtain ⟨k', v'⟩ := p
    by_cases h : k' = k <;> simp [recordGet, recordSet, h, ih]

theorem recordGet_recordSet_ne {α : Type} (m : List (String × α)) (k k' : String) (v : α)
    (h : k ≠ k') : recordGet (recordSet m k v) k' = recordGet m k' := by
  induction m with
  | nil => simp [recordGet, recordSet, h]
  | cons p rest ih =>
    obtain ⟨k₀, v₀⟩ := p
    by_cases h0 : k₀ = k
    · subst h0
      simp [recordGet, recordSet, h]
    · simp only [recordSet, if_neg h0]
      by_cases h1 : k₀ = k' <;> simp [recordGet, h1, ih]

theorem recordGet_isSome_iff_mem_keys {α : Type} (m : List (String × α)) (k : String) :
    (recordGet m k).isSome ↔ k ∈ m.map Prod.fst := by
  induction m with
  | nil => simp [recordGet]
  | cons p rest ih =>
    obtain ⟨k', v⟩ := p
    by_cases h : k' = k
    · subst h; simp [recordGet]
    · simp [recordGet, h, ih, Ne.symm h]

theorem recordGet_mem {α : Type} {m : List (String × α)} {k : String} {v : α}
    (h : recordGet m k = some v) : (k, v) ∈ m := by
  induction m with
  | nil => simp [recordGet] at h
  | cons p rest ih =>
    obtain ⟨k', v'⟩ := p
    by_cases h0 : k' = k
    · subst h0
      simp [recordGet] at h
      subst h
      exact List.mem_cons_self _ _
    · simp only [recordGet, if_neg h0] at h
      exact List.mem_cons_of_mem _ (ih h)

theorem mem_recordSet_sub {α : Type} {m : List (String × α)} {k : String} {v : α} :
    ∀ p ∈ recordSet m k v, p = (k, v) ∨ p ∈ m := by
  induction m with
  | nil => simp [recordSet]
  | cons q rest ih =>
    obtain ⟨k', v'⟩ := q
    intro p hp
    by_cases h0 : k' = k
    · simp only [recordSet, if_pos h0] at hp
      rcases List.mem_cons.1 hp with h | h
      · exact Or.inl h
      · exact Or.inr (List.mem_cons_of_mem _ h)
    · simp only [recordSet, if_neg h0] at hp
      rcases List.mem_cons.1 hp with h | h
      · exact Or.inr (by simp [h])
      · rcases ih p h with h1 | h1
        · exact Or.inl h1
        · exact Or.inr (List.mem_cons_of_mem _ h1)

theorem recordSet_keys_nodup {α : Type} {m : List (String × α)} (k : String) (v : α)
    (h : (m.map Prod.fst).Nodup) : ((recordSet m k v).map Prod.fst).Nodup := by
  induction m with
  | nil => simp [recordSet]
  | cons q rest ih =>
    obtain ⟨k', v'⟩ := q
    simp only [List.map_cons, List.nodup_cons] at h
    by_cases h0 : k' = k
    · subst h0
      simpa [recordSet] using h
    · simp only [recordSet, if_neg h0, List.map_cons, List.nodup_cons]
      refine ⟨fun hmem => ?_, ih h.2⟩
      rcases List.mem_map.1 hmem with ⟨p, hp, hfst⟩
      rcases mem_recordSet_sub p hp with h1 | h1
      · subst h1
        exact h0 hfst.symm
      · exact h.1 (hfst ▸ List.mem_map_of_mem Prod.fst h1)

theorem recordGet_eq_of_mem_nodup {α : Type} {m : List (String × α)} {k : String} {v : α}
    (hnd : (m.map Prod.fst).Nodup) (hmem : (k, v) ∈ m) : recordGet m k = some v := by
  induction m with
  | nil => simp at hmem
  | cons q rest ih =>
    obtain ⟨k', v'⟩ := q
    simp only [List.map_cons, List.nodup_cons] at hnd
    rcases List.mem_cons.1 hmem with h | h
    · injection h with h1 h2
      subst h1
      subst h2
      simp [recordGet]
    · have hne : k' ≠ k := by
        intro he
        subst he
        exact hnd.1 (List.mem_map_of_mem Prod.fst h)
      simp [recordGet, hne, ih hnd.2 h]

/-! String splitting and joining.  `splitChars` models the JavaScript
`String.prototype.split` with a single-character separator, at the level of
character lists; `splitOnDot` and `joinDot` are the instantiations at the
default path separator of the repository (`DEFAULT_PATH_SEPARATOR`,
`KEY_PATH_SEPARATOR`, both the literal dot). -/

/-- JavaScript `s.split(sep)` for a one-character separator, on char lists.
Always returns a nonempty list of groups; the empty string yields one empty
group, exactly as in JavaScript. -/
def splitChars (sep : Char) : List Char → List (List Char)
  | [] => [[]]
  | c :: rest =>
    match splitChars sep rest with
    | [] => [[]]
    | g :: gs => if c = sep then [] :: g :: gs else (c :: g) :: gs

/-- JavaScript `path.split('.')`. -/
def splitOnDot (s : String) : List String :=
  (splitChars '.' s.data).map fun cs => ⟨cs⟩

/-- JavaScript `segments.join('.')` (also the two-argument `createKeyPath` of
utils/key-path.ts at the default separator, used with `[a, b].join('.')`). -/
def joinDot : List String → String
  | [] => ""
  | [s] => s
  | s :: rest => s ++ "." ++ joinDot rest

/-- JavaScript `s.slice(0, -n)` for positive `n`: drop the last `n`
characters. -/
def strDropRight (s : String) (n : Nat) : String :=
  ⟨s.data.take (s.data.length - n)⟩

/-- JavaScript `s.endsWith(t)`. -/
def strEndsWith (s t : String) : Bool :=
  t.data.isSuffixOf s.data

/-- A path segment that contains no separator character. -/
def DotFree (s : String) : Prop := ('.' : Char) ∉ s.data

theorem splitChars_ne_nil (sep : Char) (cs : List Char) : splitChars sep cs ≠ [] := by
  cases cs with
  | nil => simp [splitChars]
  | cons c rest =>
    simp only [splitChars]
    rcases h : splitChars sep rest with _ | ⟨g, gs⟩
    · simp
    · by_cases hc : c = sep <;> simp [hc]

theorem splitChars_dotfree {sep : Char} {cs : List Char} (h : sep ∉ cs) :
    splitChars sep cs = [cs] := by
  induction cs with
  | nil => simp [splitChars]
  | cons c rest ih =>
    simp only [List.mem_cons, not_or] at h
    simp [splitChars, ih h.2, Ne.symm h.1]

theorem splitChars_append {sep : Char} {xs : List Char} (h : sep ∉ xs) (ys : List Char) :
    splitChars sep (xs ++ sep :: ys) = xs :: splitChars sep ys := by
  induction xs with
  | nil =>
    simp only [List.nil_append, splitChars]
    rcases h' : splitChars sep ys with _ | ⟨g, gs⟩
    · exact absurd h' (splitChars_ne_nil sep ys)
    · simp
  | cons c rest ih =>
    simp only [List.mem_cons, not_or] at h
    simp only [List.cons_append, splitChars, List.append_eq]
    rw [ih h.2]
    simp [Ne.symm h.1]

theorem string_data_append (s t : String) : (s ++ t).data = s.data ++ t.data :=
  String.data_append s t

theorem dot_string_data : ("." : String).data = ['.'] := rfl

/-- Splitting a dot-free segment yields that one segment. -/
theorem splitOnDot_dotfree {s : String} (h : DotFree s) : splitOnDot s = [s] := by
  simp [splitOnDot, splitChars_dotfree h]

/-- Splitting `x ++ "." ++ rest` peels off a dot-free first segment. -/
theorem splitOnDot_cons {x : String} (h : DotFree x) (rest : String) :
    splitOnDot (x ++ "." ++ rest) = x :: splitOnDot rest := by
  simp only [splitOnDot, string_data_append, dot_string_data]
  rw [List.append_assoc, List.singleton_append, splitChars_append h]
  simp

/-- Round trip: joining dot-free segments and splitting again is the
identity. -/
theorem splitOnDot_joinDot {segs : List String} (hne : segs ≠ [])
    (h : ∀ s ∈ segs, DotFree s) : splitOnDot (joinDot segs) = segs := by
  induction segs with
  | nil => exact absurd rfl hne
  | cons s rest ih =>
    cases rest with
    | nil =>
      simp only [joinDot]
      exact splitOnDot_dotfree (h s (by simp))
    | cons t ts =>
      have hs : DotFree s := h s (by simp)
      have hrest : ∀ u ∈ t :: ts, DotFree u := fun u hu => h u (List.mem_cons_of_mem _ hu)
      simp only [joinDot]
      rw [splitOnDot_cons hs, ih (by simp) hrest]

theorem joinDot_cons {s : String} {rest : List String} (h : rest ≠ []) :
    joinDot (s :: rest) = s ++ "." ++ joinDot rest := by
  cases rest with
  | nil => exact absurd rfl h
  | cons t ts => rfl

/-- Size measure for segment lists: number of segments plus total character
count.  Drives the termination of the mutually recursive path resolver. -/
def muSegs (segs : List String) : Nat :=
  segs.length + (segs.map String.length).sum

theorem muSegs_cons (s : String) (rest : List String) :
    muSegs (s :: rest) = muSegs rest + s.length + 1 := by
  simp [muSegs]
  omega

theorem string_length_append (s t : String) : (s ++ t).length = s.length + t.length := by
  show (s ++ t).data.length = s.data.length + t.data.length
  simp [string_data_append]

theorem joinDot_length {segs : List String} (h : segs ≠ []) :
    (joinDot segs).length + 1 = muSegs segs := by
  induction segs with
  | nil => exact absurd rfl h
  | cons s rest ih =>
    cases rest with
    | nil =>
      simp [joinDot, muSegs]
      omega
    | cons t ts =>
      rw [joinDot_cons (by simp)]
      rw [string_length_append, string_length_append]
      have hdot : ("." : String).length = 1 := rfl
      have := ih (by simp)
      rw [muSegs_cons]
      omega

theorem splitChars_mu (sep : Char) (cs : List Char) :
    (splitChars sep cs).length + ((splitChars sep cs).map List.length).sum = cs.length + 1 := by
  induction cs with
  | nil => simp [splitChars]
  | cons c rest ih =>
    simp only [splitChars]
    rcases h : splitChars sep rest with _ | ⟨g, gs⟩
    · exact absurd h (splitChars_ne_nil sep rest)
    · rw [h] at ih
      by_cases hc : c = sep <;> simp only [hc, if_true, if_false, ite_true, ite_false] <;>
        simp_all <;> omega

theorem muSegs_splitOnDot (s : String) : muSegs (splitOnDot s) = s.length + 1 := by
  have := splitChars_mu '.' s.data
  simp only [muSegs, splitOnDot, List.length_map, List.map_map]
  have hmap : (List.map (String.length ∘ fun cs => (⟨cs⟩ : String)) (splitChars '.' s.data)) =
      (splitChars '.' s.data).map List.length := by
    apply List.map_congr_left
    intro cs _
    rfl
  rw [hmap]
  exact this

/-- Splitting any string, then joining with the dot, never increases the
measure: the split of `joinDot segs` is exactly `segs.length + total length`
which is bounded by `muSegs segs`. -/
theorem muSegs_splitOnDot_joinDot (segs : List String) :
    muSegs (splitOnDot (joinDot segs)) ≤ muSegs segs + 1 := by
  rw [muSegs_splitOnDot]
  cases segs with
  | nil => simp [joinDot, muSegs]
  | cons s rest =>
    have := @joinDot_length (s :: rest) (by simp)
    omega

theorem muSegs_splitOnDot_joinDot_of_ne {segs : List String} (h : segs ≠ []) :
    muSegs (splitOnDot (joinDot segs)) = muSegs segs := by
  rw [muSegs_splitOnDot]
  exact joinDot_length h

/-! Attribute model (attributes/root.ts).  The `Attribute` class carries a type
tag, a type-specific definition payload, behavior flags and metadata.  Methods
on the class are embedded in state-passing style: a method of the mutable
receiver becomes a function returning the pair (receiver state after the call,
returned value).  The flag setters and `clone` construct a fresh
`new Attribute(...)` and leave the receiver untouched; `describe` assigns
`this.metadata.description` in place and returns `this`, so both components
are the updated receiver. -/

/-- Enumeration `AttributeType` of attributes/root.ts. -/
inductive AttributeType where
  | STRING | NUMBER | BOOLEAN | DATE | OBJECT | ARRAY | ENUM | TUPLE | UNION | ONE_OF
deriving DecidableEq, Repr

/-- Flag record of attributes/root.ts. -/
structure AttributeFlags where
  selectable : Bool
  filterable : Bool
  sortable : Bool
  nullable : Bool
  optional : Bool
  readonly : Bool
deriving DecidableEq, Repr

/-- Metadata record of attributes/root.ts; `description` is optional. -/
structure AttributeMetadata where
  description : Option String := none
deriving DecidableEq, Repr

/-- Constant `DEFAULT_ATTRIBUTE_FLAGS` of attributes/root.ts. -/
def DEFAULT_ATTRIBUTE_FLAGS : AttributeFlags :=
  { selectable := true, filterable := true, sortable := true,
    nullable := false, optional := false, readonly := false }

/-- Class `Attribute` of attributes/root.ts: `_type`, `_def` (abstracted by the
type parameter), `_flags` and `metadata`. -/
structure Attribute (TDef : Type) where
  type : AttributeType
  defn : TDef
  flags : AttributeFlags
  metadata : AttributeMetadata
deriving DecidableEq, Repr

/-- Method `describe`: `this.metadata.description = description; return this`.
The receiver is mutated in place, and the returned value is the receiver
itself. -/
def Attribute.describe {TDef : Type} (a : Attribute TDef) (description : String) :
    Attribute TDef × Attribute TDef :=
  let updated := { a with metadata := { a.metadata with description := some description } }
  (updated, updated)

/-- Method `selectable`: returns `new Attribute({def, type, flags: {...this._flags,
selectable: value}})`; the omitted `meta` argument defaults to the empty
metadata record. -/
def Attribute.selectable {TDef : Type} (a : Attribute TDef) (value : Bool) :
    Attribute TDef × Attribute TDef :=
  (a, { type := a.type, defn := a.defn,
        flags := { a.flags with selectable := value }, metadata := {} })

/-- Method `filterable`. -/
def Attribute.filterable {TDef : Type} (a : Attribute TDef) (value : Bool) :
    Attribute TDef × Attribute TDef :=
  (a, { type := a.type, defn := a.defn,
        flags := { a.flags with filterable := value }, metadata := {} })

/-- Method `sortable`. -/
def Attribute.sortable {TDef : Type} (a : Attribute TDef) (value : Bool) :
    Attribute TDef × Attribute TDef :=
  (a, { type := a.type, defn := a.defn,
        flags := { a.flags with sortable := value }, metadata := {} })

/-- Method `optional`. -/
def Attribute.optional {TDef : Type} (a : Attribute TDef) (value : Bool) :
    Attribute TDef × Attribute TDef :=
  (a, { type := a.type, defn := a.defn,
        flags := { a.flags with optional := value }, metadata := {} })

/-- Method `nullable`. -/
def Attribute.nullable {TDef : Type} (a : Attribute TDef) (value : Bool) :
    Attribute TDef × Attribute TDef :=
  (a, { type := a.type, defn := a.defn,
        flags := { a.flags with nullable := value }, metadata := {} })

/-- Method `nullish`: sets both `nullable` and `optional`. -/
def Attribute.nullish {TDef : Type} (a : Attribute TDef) (value : Bool) :
    Attribute TDef × Attribute TDef :=
  (a, { type := a.type, defn := a.defn,
        flags := { a.flags with nullable := value, optional := value }, metadata := {} })

/-- Method `readonly`. -/
def Attribute.readonly {TDef : Type} (a : Attribute TDef) (value : Bool) :
    Attribute TDef × Attribute TDef :=
  (a, { type := a.type, defn := a.defn,
        flags := { a.flags with readonly := value }, metadata := {} })

/-- Method `clone`: `new Attribute({def, type, flags})`; metadata is not
forwarded and therefore defaults to the empty record. -/
def Attribute.clone {TDef : Type} (a : Attribute TDef) :
    Attribute TDef × Attribute TDef :=
  (a, { type := a.type, defn := a.defn, flags := a.flags, metadata := {} })

/-! Resolver-side attribute trees.  The `ResourcePathResolver` inspects
attributes only through `instanceof ObjectAttribute`, `instanceof
ArrayAttribute`, `instanceof OneOfAttribute` and the respective `_def`
payloads (`shape`, `itemType`, `{discriminator, cases}`).  Every other
attribute class (string, number, boolean, date, enum, tuple, union, literal)
falls through all those checks identically, hence a single `prim`
constructor carrying its tag.  The flag and metadata fields of attributes
play no role in path resolution and are omitted from this view. -/

/-- Tags of the attribute classes the resolver treats as non-navigable. -/
inductive PrimType where
  | string | number | boolean | date | enum | tuple | union | literal
deriving DecidableEq, Repr

/-- Attribute tree as seen by the path resolver. -/
inductive Attr where
  | prim (tag : PrimType)
  | object (shape : List (String × Attr))
  | array (itemType : Attr)
  | oneOf (discriminator : String) (cases : List Attr)

/-- Resource of models/resource.ts: a name plus an attribute map. -/
structure Resource where
  name : String
  attributes : List (String × Attr)

/-! Resource path resolver (ResourcePathResolver).  The embedding fixes the
configuration to its defaults: `pathSeparator = "."`.  The private helper
methods `processOneOfSegment`, `processDiscriminatorSegment`, `checkAllCases`
and `checkCasesAfterDiscriminator` are single-use dispatch helpers of
`processPathSegment` and are inlined into the corresponding branches of
`processSegment` below; `validatePathInShape` is the split-then-walk body it
shares with `doValidatePath` and appears as the inner `runSegments` call.
The mutual recursion (a one-of case search re-enters the segment walk) is
driven by an explicit fuel argument; `runSegments_congr` below shows the
result does not depend on the fuel once the fuel exceeds the `muSegs`
measure of the segment list, so the wrappers `doValidatePath` and
`validatePathInShape`, which supply adequate fuel, compute exactly the
unbounded recursion of the source. -/

/-- Error messages of `ERROR_MESSAGE` with the template argument substituted,
as produced by `ERROR_MESSAGE.X.replace(..)` at the use sites. -/
def EMPTY_PATH_MSG : String := "Path cannot be empty"

/-- Message for an empty segment produced by splitting. -/
def UNDEFINED_SEGMENT_MSG : String := "Path segment is undefined"

/-- Message for a segment that is not a key of the current attribute map. -/
def ATTRIBUTE_NOT_FOUND_MSG (name : String) : String :=
  "Attribute \"" ++ name ++ "\" not found"

/-- Message for an array-marked segment naming a non-array attribute. -/
def NOT_ARRAY_MSG (name : String) : String :=
  "Attribute \"" ++ name ++ "\" is not an array"

/-- Message for descending into an array whose items are not objects. -/
def ARRAY_ITEMS_NOT_OBJECTS_MSG : String :=
  "Array items are not objects, cannot navigate deeper"

/-- Message for descending into a non-navigable attribute. -/
def CANNOT_NAVIGATE_PRIMITIVE_MSG (name : String) : String :=
  "Cannot navigate deeper into primitive attribute \"" ++ name ++ "\""

/-- Message for a path that matches no case of a one-of. -/
def NOT_FOUND_IN_ONEOF_MSG : String :=
  "Attribute not found in any case of OneOf"

/-- Interface `PathValidationResult`; optional fields are `Option`. -/
structure PathValidationResult where
  valid : Bool
  parentAttribute : Option Attr := none
  lastValidSegment : Option String := none
  attributeName : Option String := none
  fullPath : Option String := none
  error : Option String := none
  attributeFound : Option Attr := none

/-- Interface `ValidationContext`; the string fields start empty and the
separator is fixed to the default dot. -/
structure ValidationContext where
  currentAttributes : List (String × Attr)
  parentAttribute : Option Attr := none
  currentPath : String := ""
  lastValidSegment : String := ""
  attributeName : String := ""

/-- Marker `OPTIONAL_MARKER`.  Modelled from the spec: the constants module
defining it is not among the sources, but both the spec and the resolver
doc comments fix it to the question mark suffix. -/
def OPTIONAL_MARKER : String := "?"

/-- Constant `ARRAY_MARKER` of constants.ts. -/
def ARRAY_MARKER : String := "[]"

/-- Method `isOptionalSegment`. -/
def isOptionalSegment (s : String) : Bool := strEndsWith s OPTIONAL_MARKER

/-- Method `removeOptionalMarker`: `slice(0, -1)` when the marker is
present. -/
def removeOptionalMarker (s : String) : String :=
  if isOptionalSegment s then strDropRight s 1 else s

/-- Method `isArraySegment`. -/
def isArraySegment (s : String) : Bool := strEndsWith s ARRAY_MARKER

/-- Method `removeArrayMarker`: `slice(0, -2)` when the marker is present. -/
def removeArrayMarker (s : String) : String :=
  if isArraySegment s then strDropRight s 2 else s

/-- Method `processArraySegment` of the resolver.  `Sum.inl` is a terminal
result, `Sum.inr` the updated context for the next loop iteration. -/
def processArraySegment (seg : String) (isLast : Bool) (ctx : ValidationContext) :
    PathValidationResult ⊕ ValidationContext :=
  let arrayName := removeArrayMarker seg
  match recordGet ctx.currentAttributes arrayName with
  | none =>
    .inl { valid := false, parentAttribute := ctx.parentAttribute,
           lastValidSegment := some ctx.lastValidSegment,
           attributeName := some ctx.attributeName,
           fullPath := some (if ctx.lastValidSegment = "" then ""
             else strDropRight ctx.currentPath (seg.length + 1)),
           error := some (ATTRIBUTE_NOT_FOUND_MSG arrayName) }
  | some arrayAttr =>
    match arrayAttr with
    | .array itemType =>
      if isLast then
        .inl { valid := true, parentAttribute := ctx.parentAttribute,
               lastValidSegment := some seg, attributeName := some arrayName,
               fullPath := some ctx.currentPath, attributeFound := some (.array itemType) }
      else
        match itemType with
        | .object shape =>
          .inr { ctx with
                  parentAttribute := some (.array itemType),
                  currentAttributes := shape,
                  lastValidSegment := seg,
                  attributeName := arrayName }
        | _ =>
          .inl { valid := false, parentAttribute := some (.array itemType),
                 lastValidSegment := some seg, attributeName := some arrayName,
                 fullPath := some ctx.currentPath,
                 error := some ARRAY_ITEMS_NOT_OBJECTS_MSG }
    | _ =>
      .inl { valid := false, parentAttribute := ctx.parentAttribute,
             lastValidSegment := some ctx.lastValidSegment,
             attributeName := some ctx.attributeName,
             fullPath := some (if ctx.lastValidSegment = "" then ""
               else strDropRight ctx.currentPath (seg.length + 1)),
             error := some (NOT_ARRAY_MSG arrayName) }

/-- Marker result for exhausted fuel; unreachable once the fuel exceeds the
`muSegs` measure of the segment list (`runSegments_congr`). -/
def fuelExhausted : PathValidationResult :=
  { valid := false, error := some "resolver fuel exhausted" }

mutual

/-- The segment loop shared by `doValidatePath` and `validatePathInShape`:
per iteration, reject an empty segment with `UNDEFINED_SEGMENT`, otherwise
run `processPathSegment` and either return its terminal result or continue
with the updated context.  The `[]` case is the post-loop result
construction of the source (reachable only for an empty segment list). -/
def runSegments : Nat → List String → ValidationContext → PathValidationResult
  | 0, _, _ => fuelExhausted
  | _ + 1, [], ctx =>
    { valid := true, parentAttribute := ctx.parentAttribute,
      lastValidSegment := none, attributeName := some "",
      fullPath := some ctx.currentPath, attributeFound := none }
  | fuel + 1, seg :: rest, ctx =>
    if seg = "" then { valid := false, error := some UNDEFINED_SEGMENT_MSG }
    else
      match processSegment fuel seg rest.isEmpty ctx rest with
      | .inl r => r
      | .inr ctx' => runSegments fuel rest ctx'

/-- Method `processPathSegment`, with the one-of helpers inlined at their
single call sites.  The inner `runSegments` calls are the body of
`validatePathInShape` applied to `remaining.join(sep)` as in `checkAllCases`
and `checkCasesAfterDiscriminator`. -/
def processSegment : Nat → String → Bool → ValidationContext → List String →
    PathValidationResult ⊕ ValidationContext
  | 0, _, _, _, _ => .inl fuelExhausted
  | fuel + 1, seg, isLast, ctx0, remaining =>
    let ctx := { ctx0 with currentPath :=
      if ctx0.currentPath = "" then seg else ctx0.currentPath ++ "." ++ seg }
    if isArraySegment seg then processArraySegment seg isLast ctx
    else
      let cleanSegment := removeOptionalMarker seg
      match recordGet ctx.currentAttributes cleanSegment with
      | none =>
        .inl { valid := false, parentAttribute := ctx.parentAttribute,
               lastValidSegment := some ctx.lastValidSegment,
               attributeName := some ctx.attributeName,
               fullPath := some (if ctx.lastValidSegment = "" then ""
                 else strDropRight ctx.currentPath (seg.length + 1)),
               error := some (ATTRIBUTE_NOT_FOUND_MSG cleanSegment) }
      | some attr =>
        if isLast then
          .inl { valid := true, parentAttribute := ctx.parentAttribute,
                 lastValidSegment := some seg, attributeName := some cleanSegment,
                 fullPath := some ctx.currentPath, attributeFound := some attr }
        else
          match attr with
          | .object shape =>
            .inr { ctx with
                    parentAttribute := some (.object shape),
                    currentAttributes := shape,
                    lastValidSegment := seg,
                    attributeName := cleanSegment }
          | .oneOf disc cases =>
            let nextSegment := (remaining.head?).getD ""
            if nextSegment = "" then
              .inl { valid := true, parentAttribute := ctx.parentAttribute,
                     lastValidSegment := some seg, attributeName := some cleanSegment,
                     fullPath := some ctx.currentPath, attributeFound := some (.oneOf disc cases) }
            else if nextSegment = disc then
              let currentPath2 := ctx.currentPath ++ "." ++ nextSegment
              let rest2 := remaining.tail
              if rest2.isEmpty then
                .inl { valid := true, parentAttribute := some (.oneOf disc cases),
                       lastValidSegment := some nextSegment, attributeName := some disc,
                       fullPath := some currentPath2, attributeFound := some (.oneOf disc cases) }
              else
                .inl (match cases.findSome? (fun caseObj =>
                        match caseObj with
                        | .object shape =>
                          let r := runSegments fuel (splitOnDot (joinDot rest2))
                            { currentAttributes := shape,
                              parentAttribute := some (.object shape),
                              currentPath := "", lastValidSegment := "",
                              attributeName := "" }
                          if r.valid then some r else none
                        | _ => none) with
                      | some r =>
                        { valid := true, parentAttribute := r.parentAttribute,
                          lastValidSegment := some (r.lastValidSegment.getD ""),
                          attributeName := some (r.attributeName.getD ""),
                          fullPath := some (currentPath2 ++ "." ++ joinDot rest2),
                          attributeFound := r.attributeFound }
                      | none =>
                        { valid := false, parentAttribute := some (.oneOf disc cases),
                          lastValidSegment := some nextSegment,
                          attributeName := some disc,
                          fullPath := some currentPath2,
                          error := some NOT_FOUND_IN_ONEOF_MSG })
            else
              .inl (match cases.findSome? (fun caseObj =>
                      match caseObj with
                      | .object shape =>
                        let r := runSegments fuel (splitOnDot (joinDot remaining))
                          { currentAttributes := shape,
                            parentAttribute := some (.object shape),
                            currentPath := "", lastValidSegment := "",
                            attributeName := "" }
                        if r.valid then some r else none
                      | _ => none) with
                    | some r =>
                      { valid := true, parentAttribute := r.parentAttribute,
                        lastValidSegment := some (r.lastValidSegment.getD ""),
                        attributeName := some (r.attributeName.getD ""),
                        fullPath := some (ctx.currentPath ++ "." ++ joinDot remaining),
                        attributeFound := r.attributeFound }
                    | none =>
                      { valid := false, parentAttribute := some (.oneOf disc cases),
                        lastValidSegment := some seg,
                        attributeName := some cleanSegment,
                        fullPath := some ctx.currentPath,
                        error := some NOT_FOUND_IN_ONEOF_MSG })
          | _ =>
            .inl { valid := false, parentAttribute := some attr,
                   lastValidSegment := some seg, attributeName := some cleanSegment,
                   fullPath := some ctx.currentPath,
                   error := some (CANNOT_NAVIGATE_PRIMITIVE_MSG cleanSegment) }

end

/-- Method `validatePathInShape`: split the remaining path and walk it over
the given shape, with the owning case as parent attribute. -/
def validatePathInShape (shape : List (String × Attr)) (remainingPath : String)
    (parentAttr : Attr) : PathValidationResult :=
  runSegments (muSegs (splitOnDot remainingPath) + 1) (splitOnDot remainingPath)
    { currentAttributes := shape, parentAttribute := some parentAttr,
      currentPath := "", lastValidSegment := "", attributeName := "" }

/-- Method `doValidatePath`: empty path is rejected with `EMPTY_PATH`,
otherwise the path is split on the separator and walked segment by
segment starting from the top-level attribute map. -/
def doValidatePath (resource : Resource) (path : String) : PathValidationResult :=
  if path = "" then { valid := false, error := some EMPTY_PATH_MSG }
  else
    runSegments (muSegs (splitOnDot path) + 1) (splitOnDot path)
      { currentAttributes := resource.attributes, parentAttribute := none,
        currentPath := "", lastValidSegment := "", attributeName := "" }

/-- A nonempty string has positive length. -/
theorem string_length_pos {s : String} (h : s ≠ "") : 0 < s.length := by
  rcases s with ⟨_ | ⟨c, cs⟩⟩
  · exact absurd rfl h
  · show 0 < (c :: cs).length
    simp

/-- The measure of a tail never exceeds the measure of the list. -/
theorem muSegs_tail_le (segs : List String) : muSegs segs.tail ≤ muSegs segs := by
  cases segs with
  | nil => exact Nat.le_refl _
  | cons s rest =>
    rw [List.tail_cons, muSegs_cons]
    omega

/-- Fuel congruence for the mutually recursive resolver: once the fuel
exceeds the measure of the segment list, the result does not depend on the
fuel.  Proved jointly for both functions by strong induction on a bound on
the measure, so the fueled embedding computes exactly the unbounded
recursion of the source for every adequate fuel. -/
theorem resolver_fuel_congr (n : Nat) :
    (∀ segs, muSegs segs ≤ n → ∀ ctx fuel1 fuel2, muSegs segs < fuel1 →
      muSegs segs < fuel2 → runSegments fuel1 segs ctx = runSegments fuel2 segs ctx) ∧
    (∀ seg rem, seg ≠ "" → muSegs rem + seg.length ≤ n →
      ∀ isLast ctx fuel1 fuel2, muSegs rem + seg.length < fuel1 →
      muSegs rem + seg.length < fuel2 →
      processSegment fuel1 seg isLast ctx rem
        = processSegment fuel2 seg isLast ctx rem) := by
  induction n using Nat.strong_induction_on with
  | _ n ih =>
  constructor
  · intro segs hsn ctx fuel1 fuel2 h1 h2
    rcases fuel1 with _ | pf1
    · omega
    rcases fuel2 with _ | pf2
    · omega
    rcases segs with _ | ⟨seg, rest⟩
    · rfl
    rw [muSegs_cons] at hsn h1 h2
    by_cases hs : seg = ""
    · simp only [runSegments, if_pos hs]
    · have hlen := string_length_pos hs
      have hps := (ih (muSegs rest + seg.length) (by omega)).2 seg rest hs (Nat.le_refl _)
        rest.isEmpty ctx pf1 pf2 (by omega) (by omega)
      rcases hres : processSegment pf2 seg rest.isEmpty ctx rest with r | ctx'
      · simp only [runSegments, if_neg hs, hps, hres]
      · simp only [runSegments, if_neg hs, hps, hres]
        exact (ih (muSegs rest) (by omega)).1 rest (Nat.le_refl _) ctx' pf1 pf2
          (by omega) (by omega)
  · intro seg rem hs hmn isLast ctx0 fuel1 fuel2 h1 h2
    have hlen := string_length_pos hs
    rcases fuel1 with _ | q1
    · omega
    rcases fuel2 with _ | q2
    · omega
    rcases rem with _ | ⟨r0, rtail⟩
    · simp [processSegment]
    · rw [muSegs_cons] at hmn h1 h2
      by_cases hr0 : r0 = ""
      · subst hr0
        simp [processSegment]
      · have hr0len := string_length_pos hr0
        have hA : ∀ c, runSegments q1 (splitOnDot (joinDot rtail)) c
            = runSegments q2 (splitOnDot (joinDot rtail)) c := by
          have hle := muSegs_splitOnDot_joinDot rtail
          intro c
          exact (ih (muSegs (splitOnDot (joinDot rtail))) (by omega)).1 _
            (Nat.le_refl _) c q1 q2 (by omega) (by omega)
        have hB : ∀ c, runSegments q1 (splitOnDot (joinDot (r0 :: rtail))) c
            = runSegments q2 (splitOnDot (joinDot (r0 :: rtail))) c := by
          have heq := @muSegs_splitOnDot_joinDot_of_ne (r0 :: rtail) (by simp)
          rw [muSegs_cons] at heq
          intro c
          exact (ih (muSegs (splitOnDot (joinDot (r0 :: rtail)))) (by omega)).1 _
            (Nat.le_refl _) c q1 q2 (by omega) (by omega)
        simp only [processSegment, List.head?_cons, Option.getD_some, List.tail_cons,
          hA, hB]

/-- The resolver's segment walk is fuel-indifferent above the measure. -/
theorem runSegments_congr {segs : List String} {ctx : ValidationContext}
    {fuel1 fuel2 : Nat} (h1 : muSegs segs < fuel1) (h2 : muSegs segs < fuel2) :
    runSegments fuel1 segs ctx = runSegments fuel2 segs ctx :=
  (resolver_fuel_congr (muSegs segs)).1 segs (Nat.le_refl _) ctx fuel1 fuel2 h1 h2

theorem string_append_ne_empty_left {s t : String} (hs : s ≠ "") : s ++ t ≠ "" := by
  intro he
  have h1 := string_length_pos hs
  have h2 : (s ++ t).length = 0 := by rw [he]; rfl
  rw [string_length_append] at h2
  omega

theorem string_append_ne_empty_right {s t : String} (ht : t ≠ "") : s ++ t ≠ "" := by
  intro he
  have h1 := string_length_pos ht
  have h2 : (s ++ t).length = 0 := by rw [he]; rfl
  rw [string_length_append] at h2
  omega

theorem list_take_append_left {α : Type} (l1 l2 : List α) :
    (l1 ++ l2).take l1.length = l1 := by
  induction l1 with
  | nil => rfl
  | cons x xs ih => simp [ih]

/-- `slice(0, -m.length)` peels a literal suffix back off. -/
theorem strDropRight_marker (a m : String) : strDropRight (a ++ m) m.length = a := by
  show (⟨(a ++ m).data.take ((a ++ m).data.length - m.length)⟩ : String) = a
  rw [string_data_append]
  have h1 : (a.data ++ m.data).length - m.length = a.data.length := by
    have hm : m.length = m.data.length := rfl
    rw [List.length_append, hm]
    omega
  rw [h1, list_take_append_left]

/-- Dropping the last segment and its separator from a two-segment path. -/
theorem strDropRight_dot_append (a c : String) :
    strDropRight (a ++ "." ++ c) (c.length + 1) = a := by
  show (⟨(a ++ "." ++ c).data.take ((a ++ "." ++ c).data.length - (c.length + 1))⟩ : String) = a
  rw [string_data_append, string_data_append, dot_string_data]
  have h1 : ((a.data ++ ['.']) ++ c.data).length - (c.length + 1) = a.data.length := by
    have hc : c.length = c.data.length := rfl
    simp only [List.length_append, List.length_cons, List.length_nil]
    omega
  rw [h1, List.append_assoc, list_take_append_left]

theorem list_isPrefixOf_append {α : Type} [BEq α] [LawfulBEq α] (l r : List α) :
    l.isPrefixOf (l ++ r) = true := by
  induction l with
  | nil => simp [List.isPrefixOf]
  | cons x xs ih => simp [List.isPrefixOf, ih]

/-- `s.endsWith(t)` holds on `s ++ t`. -/
theorem strEndsWith_append (s t : String) : strEndsWith (s ++ t) t = true := by
  simp only [strEndsWith, string_data_append]
  simp only [List.isSuffixOf, List.reverse_append]
  exact list_isPrefixOf_append _ _

/-- A string ending in the optional marker does not end in the array
marker. -/
theorem strEndsWith_q_brackets (a : String) : strEndsWith (a ++ "?") "[]" = false := by
  simp only [strEndsWith, string_data_append]
  show (['[', ']'].isSuffixOf (a.data ++ ['?'])) = false
  simp only [List.isSuffixOf, List.reverse_append]
  show ([']', '['].isPrefixOf ('?' :: a.data.reverse)) = false
  simp [List.isPrefixOf]

/-- Dot-freeness is preserved by appending dot-free strings. -/
theorem DotFree_append {a b : String} (ha : DotFree a) (hb : DotFree b) :
    DotFree (a ++ b) := by
  simp only [DotFree, string_data_append, List.mem_append]
  rintro (h | h)
  · exact ha h
  · exact hb h

theorem splitOnDot_two {a b : String} (ha : DotFree a) (hb : DotFree b) :
    splitOnDot (a ++ "." ++ b) = [a, b] := by
  rw [splitOnDot_cons ha, splitOnDot_dotfree hb]

theorem splitOnDot_three {a b c : String} (ha : DotFree a) (hb : DotFree b)
    (hc : DotFree c) : splitOnDot (a ++ "." ++ b ++ "." ++ c) = [a, b, c] := by
  have h1 : a ++ "." ++ b ++ "." ++ c = a ++ "." ++ (b ++ "." ++ c) := by
    simp [String.append_assoc]
  rw [h1, splitOnDot_cons ha, splitOnDot_two hb hc]

/-- Single unfolding of the segment loop at any adequate fuel, with the
canonical adequate fuels substituted for the recursive occurrences. -/
theorem runSegments_step (seg : String) (rest : List String) (ctx : ValidationContext)
    {fuel : Nat} (h : muSegs (seg :: rest) < fuel) :
    runSegments fuel (seg :: rest) ctx =
      if seg = "" then { valid := false, error := some UNDEFINED_SEGMENT_MSG }
      else
        match processSegment (muSegs rest + seg.length + 1) seg rest.isEmpty ctx rest with
        | .inl r => r
        | .inr ctx2 => runSegments (muSegs rest + 1) rest ctx2 := by
  have hcan : runSegments fuel (seg :: rest) ctx
      = runSegments (muSegs (seg :: rest) + 1) (seg :: rest) ctx :=
    runSegments_congr h (Nat.lt_succ_self _)
  rw [hcan, muSegs_cons]
  by_cases hs : seg = ""
  · simp only [runSegments, if_pos hs]
  · simp only [runSegments, if_neg hs]
    rcases hres : processSegment (muSegs rest + seg.length + 1) seg rest.isEmpty ctx rest
      with r | ctx2
    · simp only [hres]
    · simp only [hres]
      exact runSegments_congr (by omega) (Nat.lt_succ_self _)

/-! Result cache (cache/ephemeral-cache.ts and the caching wrapper
`validatePath` of the resolver).  `Date.now()` is modelled by an explicit
clock argument; the cache is threaded as explicit state. -/

/-- Class `EphemeralCache`, specialised to `PathValidationResult` values:
a map from keys to entries `{expiry, value}`. -/
structure EphemeralCache where
  entries : List (String × (Nat × PathValidationResult))

/-- Method `EphemeralCache.get` at time `now`: a present entry whose expiry
lies strictly in the past is deleted and reported as a miss; otherwise the
stored value is returned.  Returns the result together with the cache state
after the call. -/
def cacheGet (c : EphemeralCache) (key : String) (now : Nat) :
    Option PathValidationResult × EphemeralCache :=
  match recordGet c.entries key with
  | none => (none, c)
  | some (expiry, value) =>
    if expiry < now then
      (none, ⟨(c.entries.filter fun p => p.1 ≠ key)⟩)
    else
      (some value, c)

/-- Method `EphemeralCache.set` with the default TTL: stores the value under
the key with expiry `now + ttl`. -/
def cacheSet (c : EphemeralCache) (key : String) (value : PathValidationResult)
    (expiry : Nat) : EphemeralCache :=
  ⟨recordSet c.entries key (expiry, value)⟩

/-- Method `ResourcePathResolver.getCacheKey`. -/
def getCacheKey (resource : Resource) (path : String) : String :=
  resource.name ++ ":" ++ path

/-- Method `ResourcePathResolver.validatePath` with caching enabled: look the
key up, return a hit unchanged, otherwise compute `doValidatePath` and store
the result with the configured TTL.  Returns the result together with the
cache state after the call. -/
def validatePathCached (ttl : Nat) (c : EphemeralCache) (now : Nat)
    (resource : Resource) (path : String) :
    PathValidationResult × EphemeralCache :=
  let key := getCacheKey resource path
  match cacheGet c key now with
  | (some cached, c') => (cached, c')
  | (none, c') =>
    let result := doValidatePath resource path
    (result, cacheSet c' key result (now + ttl))

/-! Relation graph (relations/graph.ts, first variant, and
relations/connector.ts).  A resource map is an association list of named
resources; the declaration callback is modelled by the connection map it
returns (an association list from source-resource names to descriptor
arrays). -/

/-- Enumeration `RelationCardinality`. -/
inductive RelationCardinality where
  | ONE | MANY
deriving DecidableEq, Repr

/-- A finalized relation descriptor (`RelationConnection` produced by
`connector.one.<target>.as(name)` or `connector.many.<target>.as(name)`):
`{name, target, cardinality}`. -/
structure RelationDescr where
  name : String
  target : String
  cardinality : RelationCardinality

/-- Class `Relation`: a directed edge storing the full source and target
resources, the relation name and the cardinality. -/
structure Relation where
  source : Resource
  target : Resource
  name : String
  cardinality : RelationCardinality

/-- Interface `ResourceWithRelations`. -/
structure ResourceWithRelations where
  resource : Resource
  relations : List (String × Relation)

/-- Class `RelationGraph`: the per-resource relation map and the adjacency
list of outgoing edges (target-name sets in insertion order). -/
structure RelationGraph where
  relations : List (String × ResourceWithRelations)
  adjacencyList : List (String × List String)

/-- Target lookup of `RelationConnector.buildConnectionMap`: accessing
`connector.one.<target>` or `connector.many.<target>` resolves the target in
the resource map and throws when it is absent. -/
def connectorResolve (resourceMap : List (String × Resource)) (target : String) :
    Except String Resource :=
  match recordGet resourceMap target with
  | none => .error ("Resource \"" ++ target ++ "\" not found in resource map")
  | some r => .ok r

/-- The inner descriptor loop of `RelationGraph.createGraphData` for one
source resource: validate each descriptor (a missing name and an unknown
target resource both throw), build the `Relation`, insert it into the
per-source relation map (last write wins) and add the target to the
adjacency set of the source. -/
def processDescrs (resourceMap : List (String × Resource)) (sourceName : String)
    (sourceResource : Resource) :
    List RelationDescr → List (String × Relation) → List (String × List String) →
    Except String (List (String × Relation) × List (String × List String))
  | [], processedRelations, adjacencyList => .ok (processedRelations, adjacencyList)
  | d :: rest, processedRelations, adjacencyList =>
    if d.name = "" then
      .error ("Relation name must be specified using the as() method for resource "
        ++ sourceName)
    else
      match recordGet resourceMap d.target with
      | none => .error ("Resource " ++ d.target ++ " not found in resource map")
      | some targetResource =>
        processDescrs resourceMap sourceName sourceResource rest
          (recordSet processedRelations d.name
            ⟨sourceResource, targetResource, d.name, d.cardinality⟩)
          (recordModify adjacencyList sourceName (fun s => setAdd s d.target))

/-- The outer source loop of `RelationGraph.createGraphData`: process every
resource of the map in order, defaulting to an empty descriptor array for
undeclared sources, and accumulate the relations record and the adjacency
list. -/
def buildGraph (resourceMap : List (String × Resource))
    (connections : List (String × List RelationDescr)) :
    List (String × Resource) → List (String × ResourceWithRelations) →
    List (String × List String) → Except String RelationGraph
  | [], relations, adjacencyList => .ok ⟨relations, adjacencyList⟩
  | (sourceName, sourceResource) :: rest, relations, adjacencyList =>
    match processDescrs resourceMap sourceName sourceResource
        ((recordGet connections sourceName).getD []) [] adjacencyList with
    | .error e => .error e
    | .ok (processedRelations, adjacencyList') =>
      buildGraph resourceMap connections rest
        (recordSet relations sourceName ⟨sourceResource, processedRelations⟩)
        adjacencyList'

/-- Method `RelationGraph.createGraphData` (the body of the constructor, and
hence of `RelationGraph.create` once the declaration callback has produced
its connection map): initialise the adjacency list with one empty set per
resource, then process every source resource. -/
def createGraphData (resourceMap : List (String × Resource))
    (connections : List (String × List RelationDescr)) : Except String RelationGraph :=
  buildGraph resourceMap connections resourceMap []
    (resourceMap.map fun p => (p.1, []))

/-- Lookup `this.relations[resourceName]`, which in the source throws on a
missing key; the checked traversals below account for that possibility. -/
def getRelationsFor? (g : RelationGraph) (resourceName : String) :
    Option (List (String × Relation)) :=
  (recordGet g.relations resourceName).map ResourceWithRelations.relations

/-- Method `getRelationsFor`, totalised with an empty relation map on a
missing resource entry.  The claim about construction invariants shows the
default is never taken by the traversals on a constructed graph. -/
def getRelationsFor (g : RelationGraph) (resourceName : String) :
    List (String × Relation) :=
  (getRelationsFor? g resourceName).getD []

/-- Method `getAdjacentResources`: `this.adjacencyList.get(name) || []`. -/
def getAdjacentResources (g : RelationGraph) (resourceName : String) : List String :=
  (recordGet g.adjacencyList resourceName).getD []

/-- All strings occurring in adjacency target sets; bounds the set of
resources the BFS can ever visit. -/
def allTargets (g : RelationGraph) : List String :=
  (g.adjacencyList.map Prod.snd).flatten

/-- A BFS queue element: `{resourceName, path}`. -/
structure QueueEntry where
  resourceName : String
  path : List String

/-- The inner neighbour loop of `findShortestPath`: scan the adjacent
resources of the dequeued entry; return the extended path on finding the
target, otherwise enqueue unvisited neighbours and mark them visited.
`Sum.inl` is the early return, `Sum.inr` the updated queue and visited
set. -/
def bfsExpand (toResource : String) (path : List String) :
    List String → List QueueEntry → List String →
    List String ⊕ (List QueueEntry × List String)
  | [], queue, visited => .inr (queue, visited)
  | next :: rest, queue, visited =>
    if next = toResource then .inl (path ++ [next])
    else if next ∈ visited then bfsExpand toResource path rest queue visited
    else bfsExpand toResource path rest
      (queue ++ [⟨next, path ++ [next]⟩]) (visited ++ [next])

/-- The BFS while-loop of `findShortestPath`.  The fuel only serves
termination: `findShortestPath` supplies fuel that provably outlasts the
loop (each iteration removes one queue entry and every enqueue is paired
with a fresh visited mark, so the visited bound caps the iteration
count). -/
def bfsLoop (g : RelationGraph) (toResource : String) :
    Nat → List QueueEntry → List String → Option (List String)
  | 0, _, _ => none
  | _ + 1, [], _ => none
  | fuel + 1, current :: rest, visited =>
    match bfsExpand toResource current.path
        (getAdjacentResources g current.resourceName) rest visited with
    | .inl found => some found
    | .inr (queue', visited') => bfsLoop g toResource fuel queue' visited'

/-- Method `findShortestPath`: `[from]` immediately when the endpoints agree,
otherwise BFS over the adjacency list from a queue seeded with `from` and a
visited set seeded with `from`. -/
def findShortestPath (g : RelationGraph) (fromResource toResource : String) :
    Option (List String) :=
  if fromResource = toResource then some [fromResource]
  else
    bfsLoop g toResource (1 + (allTargets g).length)
      [⟨fromResource, [fromResource]⟩] [fromResource]

/-- Method `collectRelationPaths` (first variant): stop when the depth is
exhausted or the current resource was already visited on this branch;
otherwise mark it visited, and for every relation push the extended path and
recurse into the target with a per-branch copy of the visited set.  The
source decrements a JavaScript number below zero at most once before the
`<= 0` guard stops it, which over `Nat` coincides with truncated
subtraction. -/
def collectRelationPaths (g : RelationGraph) :
    Nat → String → String → List String → List String
  | 0, _, _, _ => []
  | remainingDepth + 1, resourceName, currentPath, visited =>
    if resourceName ∈ visited then []
    else
      (getRelationsFor g resourceName).flatMap fun p =>
        let newPath := currentPath ++ "." ++ p.1
        newPath :: collectRelationPaths g remainingDepth p.2.target.name newPath
          (visited ++ [resourceName])

/-- Method `getRelationPaths` (first variant): push every direct relation
name, then collect nested paths from its target with depth `maxDepth - 1`
and a visited set seeded with the starting resource. -/
def getRelationPaths (g : RelationGraph) (resourceName : String) (maxDepth : Nat) :
    List String :=
  (getRelationsFor g resourceName).flatMap fun p =>
    p.1 :: collectRelationPaths g (maxDepth - 1) p.2.target.name p.1 [resourceName]

/-- The segment walk of `isValidRelationPath`. -/
def relationWalk (g : RelationGraph) : List String → String → Bool
  | [], _ => true
  | seg :: rest, currentResource =>
    match recordGet (getRelationsFor g currentResource) seg with
    | none => false
    | some rel => relationWalk g rest rel.target.name

/-- Method `isValidRelationPath`: an empty path is invalid; otherwise split
on the separator and follow the relation maps link by link. -/
def isValidRelationPath (g : RelationGraph) (resourceName : String) (path : String) :
    Bool :=
  if path = "" then false
  else relationWalk g (splitOnDot path) resourceName

/-! Checked variants of the traversals: identical control flow, but a lookup
`this.relations[name]` on a missing name — which would throw in the source —
yields `none` instead of silently using an empty relation map.  The
construction invariant claim shows they return `some` on constructed graphs,
so the totalised functions above never take their defaults there. -/

/-- Checked variant of `relationWalk`. -/
def relationWalkChecked (g : RelationGraph) : List String → String → Option Bool
  | [], _ => some true
  | seg :: rest, currentResource =>
    match getRelationsFor? g currentResource with
    | none => none
    | some relations =>
      match recordGet relations seg with
      | none => some false
      | some rel => relationWalkChecked g rest rel.target.name

/-- Checked variant of `isValidRelationPath`. -/
def isValidRelationPathChecked (g : RelationGraph) (resourceName : String)
    (path : String) : Option Bool :=
  if path = "" then some false
  else relationWalkChecked g (splitOnDot path) resourceName

/-- Checked variant of `collectRelationPaths`. -/
def collectRelationPathsChecked (g : RelationGraph) :
    Nat → String → String → List String → Option (List String)
  | 0, _, _, _ => some []
  | remainingDepth + 1, resourceName, currentPath, visited =>
    if resourceName ∈ visited then some []
    else
      match getRelationsFor? g resourceName with
      | none => none
      | some relations =>
        relations.foldr (fun p acc =>
          match acc with
          | none => none
          | some tailPaths =>
            let newPath := currentPath ++ "." ++ p.1
            match collectRelationPathsChecked g remainingDepth p.2.target.name newPath
                (visited ++ [resourceName]) with
            | none => none
            | some sub => some (newPath :: sub ++ tailPaths)) (some [])

/-- Checked variant of `getRelationPaths`. -/
def getRelationPathsChecked (g : RelationGraph) (resourceName : String)
    (maxDepth : Nat) : Option (List String) :=
  match getRelationsFor? g resourceName with
  | none => none
  | some relations =>
    relations.foldr (fun p acc =>
      match acc with
      | none => none
      | some tailPaths =>
        match collectRelationPathsChecked g (maxDepth - 1) p.2.target.name p.1
            [resourceName] with
        | none => none
        | some sub => some (p.1 :: sub ++ tailPaths)) (some [])

/-! Claim C9: attribute immutability.  The claim asserts that every flag
setter, `describe` and `clone` returns a fresh instance and leaves the
receiver unchanged.  That is true of the seven flag setters and of `clone`,
but false of `describe`, which assigns `this.metadata.description` in place
and returns `this` — exactly the historical variant the spec flags as
inconsistent. -/

/-- Concrete attribute used to exhibit the mutation performed by
`describe`. -/
def plainStringAttribute : Attribute Unit :=
  { type := .STRING, defn := (), flags := DEFAULT_ATTRIBUTE_FLAGS, metadata := {} }

/-- Claim C9, counterexample: calling `describe` on a fresh string attribute
changes the receiver (its metadata acquires the description) and returns the
receiver itself rather than a distinct updated copy of an unchanged
receiver.  The first component of the embedded method is the receiver state
after the call. -/
theorem describe_mutates_receiver :
    (plainStringAttribute.describe "d").1 ≠ plainStringAttribute ∧
    (plainStringAttribute.describe "d").2 = (plainStringAttribute.describe "d").1 := by
  constructor
  · decide
  · rfl

/-- Claim C9, amended: every flag setter (`selectable`, `filterable`,
`sortable`, `optional`, `nullable`, `nullish`, `readonly`) and `clone`
leaves the receiver unchanged and returns a freshly constructed attribute
carrying the updated flags (and empty metadata, since the constructor
defaults it); `describe`, by contrast, updates the receiver metadata in
place and returns the mutated receiver itself. -/
theorem attribute_setters_frame {TDef : Type} (a : Attribute TDef) (v : Bool) (d : String) :
    (a.selectable v).1 = a ∧
    (a.selectable v).2 =
      { type := a.type, defn := a.defn, flags := { a.flags with selectable := v },
        metadata := {} } ∧
    (a.filterable v).1 = a ∧
    (a.filterable v).2 =
      { type := a.type, defn := a.defn, flags := { a.flags with filterable := v },
        metadata := {} } ∧
    (a.sortable v).1 = a ∧
    (a.sortable v).2 =
      { type := a.type, defn := a.defn, flags := { a.flags with sortable := v },
        metadata := {} } ∧
    (a.optional v).1 = a ∧
    (a.optional v).2 =
      { type := a.type, defn := a.defn, flags := { a.flags with optional := v },
        metadata := {} } ∧
    (a.nullable v).1 = a ∧
    (a.nullable v).2 =
      { type := a.type, defn := a.defn, flags := { a.flags with nullable := v },
        metadata := {} } ∧
    (a.nullish v).1 = a ∧
    (a.nullish v).2 =
      { type := a.type, defn := a.defn, flags := { a.flags with nullable := v, optional := v },
        metadata := {} } ∧
    (a.readonly v).1 = a ∧
    (a.readonly v).2 =
      { type := a.type, defn := a.defn, flags := { a.flags with readonly := v },
        metadata := {} } ∧
    (a.clone).1 = a ∧
    (a.clone).2 = { type := a.type, defn := a.defn, flags := a.flags, metadata := {} } ∧
    (a.describe d).1 = { a with metadata := { a.metadata with description := some d } } ∧
    (a.describe d).2 = (a.describe d).1 := by
  refine ⟨rfl, rfl, rfl, rfl, rfl, rfl, rfl, rfl, rfl, rfl, rfl, rfl, rfl, ?_, rfl, rfl, rfl, rfl⟩
  rfl

/-! Construction lemmas for the relation graph: a successful
`createGraphData` certifies that every processed descriptor carried a
nonempty name and a resolvable target. -/

theorem processDescrs_ok_valid {M : List (String × Resource)} {sn : String} {sr : Resource}
    {ds : List RelationDescr} {pr : List (String × Relation)}
    {adj : List (String × List String)} {out : List (String × Relation) × List (String × List String)}
    (h : processDescrs M sn sr ds pr adj = .ok out) :
    ∀ d ∈ ds, d.name ≠ "" ∧ recordGet M d.target ≠ none := by
  induction ds generalizing pr adj with
  | nil => simp
  | cons d0 rest ih =>
    intro d hd
    simp only [processDescrs] at h
    by_cases hname : d0.name = ""
    · simp [hname] at h
    · rw [if_neg hname] at h
      rcases htgt : recordGet M d0.target with _ | tr
      · rw [htgt] at h
        simp at h
      · rw [htgt] at h
        rcases List.mem_cons.1 hd with h1 | h1
        · subst h1
          exact ⟨hname, by simp [htgt]⟩
        · exact ih h d h1

theorem buildGraph_ok_valid {M : List (String × Resource)}
    {C : List (String × List RelationDescr)} {todo : List (String × Resource)}
    {rels : List (String × ResourceWithRelations)} {adj : List (String × List String)}
    {g : RelationGraph} (h : buildGraph M C todo rels adj = .ok g) :
    ∀ sn sr, (sn, sr) ∈ todo → ∀ d ∈ (recordGet C sn).getD [],
      d.name ≠ "" ∧ recordGet M d.target ≠ none := by
  induction todo generalizing rels adj with
  | nil => simp
  | cons p rest ih =>
    obtain ⟨sn0, sr0⟩ := p
    intro sn sr hmem d hd
    simp only [buildGraph] at h
    rcases hp : processDescrs M sn0 sr0 ((recordGet C sn0).getD []) [] adj with e | out
    · rw [hp] at h
      simp at h
    · rw [hp] at h
      rcases List.mem_cons.1 hmem with h1 | h1
      · injection h1 with h1a h1b
        subst h1a
        exact processDescrs_ok_valid hp d hd
      · exact ih h sn sr h1 d hd

/-- A successful construction validated every descriptor of every source
resource present in the map. -/
theorem createGraphData_ok_valid {M : List (String × Resource)}
    {C : List (String × List RelationDescr)} {g : RelationGraph}
    (h : createGraphData M C = .ok g) :
    ∀ sn sr, (sn, sr) ∈ M → ∀ d ∈ (recordGet C sn).getD [],
      d.name ≠ "" ∧ recordGet M d.target ≠ none :=
  buildGraph_ok_valid h

/-- Claim C2: for every resource map and declaration result, a declared
relation descriptor (under a source that is a key of the map, as the typed
declaration callback guarantees) whose relation name is missing or whose
target is not a key of the map makes graph construction fail with a thrown
error before any graph value is produced; and independently, the fluent
connector throws as soon as an unknown target resource is accessed. -/
theorem graph_construction_throws_on_bad_descriptor
    (M : List (String × Resource)) (C : List (String × List RelationDescr))
    (s : String) (d : RelationDescr)
    (hs : recordGet M s ≠ none)
    (hd : d ∈ (recordGet C s).getD [])
    (hbad : d.name = "" ∨ recordGet M d.target = none) :
    (∃ msg, createGraphData M C = .error msg) ∧
    (∀ target, recordGet M target = none →
      connectorResolve M target =
        .error ("Resource \"" ++ target ++ "\" not found in resource map")) := by
  constructor
  · rcases hres : createGraphData M C with msg | g
    · exact ⟨msg, rfl⟩
    · exfalso
      rcases Option.ne_none_iff_exists'.1 hs with ⟨sr, hsr⟩
      have := createGraphData_ok_valid hres s sr (recordGet_mem hsr) d hd
      rcases hbad with h | h
      · exact this.1 h
      · exact this.2 h
  · intro target htgt
    simp [connectorResolve, htgt]

/-- Witness for claim C2 at a concrete input: a two-resource map in which
`user` declares a relation to the absent resource `ghost`. -/
theorem graph_construction_throws_witness :
    (∃ msg, createGraphData
        [("user", ⟨"user", []⟩), ("post", ⟨"post", []⟩)]
        [("user", [⟨"friends", "ghost", .MANY⟩])] = .error msg) ∧
    (∀ target, recordGet [("user", (⟨"user", []⟩ : Resource)), ("post", ⟨"post", []⟩)] target = none →
      connectorResolve [("user", ⟨"user", []⟩), ("post", ⟨"post", []⟩)] target =
        .error ("Resource \"" ++ target ++ "\" not found in resource map")) :=
  graph_construction_throws_on_bad_descriptor
    [("user", ⟨"user", []⟩), ("post", ⟨"post", []⟩)]
    [("user", [⟨"friends", "ghost", .MANY⟩])]
    "user" ⟨"friends", "ghost", .MANY⟩
    (by simp [recordGet])
    (by simp [recordGet])
    (Or.inr (by simp [recordGet]))

/-! Claim C10: construction invariants.  Every key of the input resource map
becomes a key of the graph relation record; under the standing well-formedness
condition that map keys agree with the stored resource names (which
`combineResources` and the typed resource-map contract guarantee), every
stored relation has a target whose name is again a key; consequently the
checked traversals, which report a lookup of a missing resource entry as
`none`, agree with the total traversals and never miss. -/

/-- Well-formed resource map: each entry is keyed by its resource name. -/
def CoherentMap (M : List (String × Resource)) : Prop :=
  ∀ p ∈ M, (p.2 : Resource).name = p.1

/-- Closure of a graph: targets of stored relations have resource entries. -/
def GraphClosed (g : RelationGraph) : Prop :=
  ∀ n e, recordGet g.relations n = some e →
    ∀ p ∈ e.relations, getRelationsFor? g (p.2 : Relation).target.name ≠ none

theorem buildGraph_ok_keys {M : List (String × Resource)}
    {C : List (String × List RelationDescr)} {todo : List (String × Resource)}
    {rels : List (String × ResourceWithRelations)} {adj : List (String × List String)}
    {g : RelationGraph} (h : buildGraph M C todo rels adj = .ok g) :
    ∀ k, (k ∈ todo.map Prod.fst ∨ recordGet rels k ≠ none) →
      recordGet g.relations k ≠ none := by
  induction todo generalizing rels adj with
  | nil =>
    intro k hk
    simp only [buildGraph] at h
    injection h with h
    subst h
    rcases hk with hk | hk
    · simp at hk
    · exact hk
  | cons p rest ih =>
    obtain ⟨sn0, sr0⟩ := p
    intro k hk
    simp only [buildGraph] at h
    rcases hp : processDescrs M sn0 sr0 ((recordGet C sn0).getD []) [] adj with e | out
    · rw [hp] at h
      simp at h
    · rw [hp] at h
      apply ih h
      rcases hk with hk | hk
      · rcases List.mem_cons.1 hk with hk1 | hk1
        · right
          subst hk1
          simp [recordGet_recordSet_self]
        · exact Or.inl hk1
      · right
        by_cases hkk : sn0 = k
        · subst hkk
          simp [recordGet_recordSet_self]
        · rw [recordGet_recordSet_ne _ _ _ _ hkk]
          exact hk

/-- Part (i) of the invariant: keys of the resource map are keys of the
graph relation record. -/
theorem createGraphData_ok_keys {M : List (String × Resource)}
    {C : List (String × List RelationDescr)} {g : RelationGraph}
    (h : createGraphData M C = .ok g) :
    ∀ k, recordGet M k ≠ none → recordGet g.relations k ≠ none := by
  intro k hk
  apply buildGraph_ok_keys h
  left
  rcases Option.ne_none_iff_exists'.1 hk with ⟨r, hr⟩
  exact List.mem_map_of_mem Prod.fst (recordGet_mem hr)

theorem processDescrs_ok_targets {M : List (String × Resource)} {sn : String} {sr : Resource}
    {ds : List RelationDescr} {pr : List (String × Relation)}
    {adj : List (String × List String)}
    {out : List (String × Relation) × List (String × List String)}
    (hco : CoherentMap M)
    (h : processDescrs M sn sr ds pr adj = .ok out)
    (hpr : ∀ p ∈ pr, recordGet M (p.2 : Relation).target.name ≠ none) :
    ∀ p ∈ out.1, recordGet M (p.2 : Relation).target.name ≠ none := by
  induction ds generalizing pr adj with
  | nil =>
    simp only [processDescrs] at h
    injection h with h
    subst h
    exact hpr
  | cons d0 rest ih =>
    simp only [processDescrs] at h
    by_cases hname : d0.name = ""
    · simp [hname] at h
    · rw [if_neg hname] at h
      rcases htgt : recordGet M d0.target with _ | tr
      · rw [htgt] at h
        simp at h
      · rw [htgt] at h
        apply ih h
        intro p hp
        rcases mem_recordSet_sub p hp with h1 | h1
        · subst h1
          have hname2 : tr.name = d0.target := hco _ (recordGet_mem htgt)
          simp only []
          rw [hname2, htgt]
          simp
        · exact hpr p h1

theorem buildGraph_ok_targets {M : List (String × Resource)}
    {C : List (String × List RelationDescr)} {todo : List (String × Resource)}
    {rels : List (String × ResourceWithRelations)} {adj : List (String × List String)}
    {g : RelationGraph} (hco : CoherentMap M) (h : buildGraph M C todo rels adj = .ok g)
    (hrels : ∀ q ∈ rels, ∀ p ∈ (q.2 : ResourceWithRelations).relations,
      recordGet M (p.2 : Relation).target.name ≠ none) :
    ∀ q ∈ g.relations, ∀ p ∈ (q.2 : ResourceWithRelations).relations,
      recordGet M (p.2 : Relation).target.name ≠ none := by
  induction todo generalizing rels adj with
  | nil =>
    simp only [buildGraph] at h
    injection h with h
    subst h
    exact hrels
  | cons p0 rest ih =>
    obtain ⟨sn0, sr0⟩ := p0
    simp only [buildGraph] at h
    rcases hp : processDescrs M sn0 sr0 ((recordGet C sn0).getD []) [] adj with e | out
    · rw [hp] at h
      simp at h
    · rw [hp] at h
      apply ih h
      intro q hq p hpp
      rcases mem_recordSet_sub q hq with h1 | h1
      · subst h1
        exact processDescrs_ok_targets hco hp (by simp) p hpp
      · exact hrels q h1 p hpp

/-- Part (ii) of the invariant, packaged as closure of the graph. -/
theorem createGraphData_ok_closed {M : List (String × Resource)}
    {C : List (String × List RelationDescr)} {g : RelationGraph}
    (hco : CoherentMap M) (h : createGraphData M C = .ok g) : GraphClosed g := by
  intro n e hn p hp
  have htgt : recordGet M (p.2 : Relation).target.name ≠ none :=
    buildGraph_ok_targets hco h (by simp) (n, e) (recordGet_mem hn) p hp
  have := createGraphData_ok_keys h _ htgt
  simp only [getRelationsFor?]
  rcases hres : recordGet g.relations (p.2 : Relation).target.name with _ | e'
  · exact absurd hres this
  · simp

theorem relationWalkChecked_agrees {g : RelationGraph} (hcl : GraphClosed g) :
    ∀ (segs : List String) (cur : String), getRelationsFor? g cur ≠ none →
      relationWalkChecked g segs cur = some (relationWalk g segs cur) := by
  intro segs
  induction segs with
  | nil => intro cur _; rfl
  | cons seg rest ih =>
    intro cur hcur
    rcases hrel : getRelationsFor? g cur with _ | rels
    · exact absurd hrel hcur
    · have hfor : getRelationsFor g cur = rels := by
        simp [getRelationsFor, hrel]
      simp only [relationWalkChecked, relationWalk, hrel, hfor]
      rcases hseg : recordGet rels seg with _ | rel
      · rfl
      · apply ih
        rcases hcur2 : recordGet g.relations cur with _ | e
        · simp [getRelationsFor?, hcur2] at hrel
        · have hrels : e.relations = rels := by
            simp [getRelationsFor?, hcur2] at hrel
            exact hrel
          exact hcl cur e hcur2 (seg, rel) (hrels ▸ recordGet_mem hseg)

/-- A fold that threads an optional accumulator and per-element optional
sublists equals the corresponding `flatMap` once every sublist is known to
be present. -/
theorem foldr_checked_eq {α : Type} (f : α → String) (sub? : α → Option (List String))
    (sub : α → List String) (l : List α) (h : ∀ p ∈ l, sub? p = some (sub p)) :
    l.foldr (fun p acc =>
      match acc with
      | none => none
      | some tailPaths =>
        match sub? p with
        | none => none
        | some s => some (f p :: s ++ tailPaths)) (some []) =
    some (l.flatMap fun p => f p :: sub p) := by
  induction l with
  | nil => rfl
  | cons p ps ih =>
    simp only [List.foldr_cons, ih (fun q hq => h q (List.mem_cons_of_mem _ hq)),
      List.flatMap_cons, h p (List.mem_cons_self _ _)]

theorem collectRelationPathsChecked_agrees {g : RelationGraph} (hcl : GraphClosed g) :
    ∀ (d : Nat) (cur path : String) (visited : List String),
      getRelationsFor? g cur ≠ none →
      collectRelationPathsChecked g d cur path visited =
        some (collectRelationPaths g d cur path visited) := by
  intro d
  induction d with
  | zero => intro cur path visited _; rfl
  | succ d ih =>
    intro cur path visited hcur
    by_cases hv : cur ∈ visited
    · simp [collectRelationPathsChecked, collectRelationPaths, hv]
    · rcases hrel : getRelationsFor? g cur with _ | rels
      · exact absurd hrel hcur
      · have hfor : getRelationsFor g cur = rels := by
          simp [getRelationsFor, hrel]
        have htargets : ∀ p ∈ rels, getRelationsFor? g (p.2 : Relation).target.name ≠ none := by
          intro p hp
          rcases hcur2 : recordGet g.relations cur with _ | e
          · simp [getRelationsFor?, hcur2] at hrel
          · have hrels : e.relations = rels := by
              simp [getRelationsFor?, hcur2] at hrel
              exact hrel
            exact hcl cur e hcur2 p (hrels ▸ hp)
        simp only [collectRelationPathsChecked, collectRelationPaths, if_neg hv, hrel, hfor]
        exact foldr_checked_eq
          (fun p => path ++ "." ++ p.1)
          (fun p => collectRelationPathsChecked g d p.2.target.name (path ++ "." ++ p.1)
            (visited ++ [cur]))
          (fun p => collectRelationPaths g d p.2.target.name (path ++ "." ++ p.1)
            (visited ++ [cur]))
          rels
          (fun p hp => ih p.2.target.name _ _ (htargets p hp))

theorem getRelationPathsChecked_agrees {g : RelationGraph} (hcl : GraphClosed g)
    {resourceName : String} (hstart : getRelationsFor? g resourceName ≠ none)
    (maxDepth : Nat) :
    getRelationPathsChecked g resourceName maxDepth =
      some (getRelationPaths g resourceName maxDepth) := by
  rcases hrel : getRelationsFor? g resourceName with _ | rels
  · exact absurd hrel hstart
  · have hfor : getRelationsFor g resourceName = rels := by
      simp [getRelationsFor, hrel]
    have htargets : ∀ p ∈ rels, getRelationsFor? g (p.2 : Relation).target.name ≠ none := by
      intro p hp
      rcases hcur2 : recordGet g.relations resourceName with _ | e
      · simp [getRelationsFor?, hcur2] at hrel
      · have hrels : e.relations = rels := by
          simp [getRelationsFor?, hcur2] at hrel
          exact hrel
        exact hcl resourceName e hcur2 p (hrels ▸ hp)
    simp only [getRelationPathsChecked, getRelationPaths, hrel, hfor]
    exact foldr_checked_eq
      (fun p => p.1)
      (fun p => collectRelationPathsChecked g (maxDepth - 1) p.2.target.name p.1
        [resourceName])
      (fun p => collectRelationPaths g (maxDepth - 1) p.2.target.name p.1
        [resourceName])
      rels
      (fun p hp => collectRelationPathsChecked_agrees hcl _ _ _ _ (htargets p hp))

/-- Claim C10: on a successfully constructed graph over a well-formed
resource map, (i) every key of the map is a key of the relations record,
(ii) the target name of every stored relation is again such a key, and
(iii, iv) the relation-path traversals, instrumented to report a dereference
of a missing resource entry, never miss and agree with the plain
traversals, for every starting key, every path string and every depth. -/
theorem graph_invariant_lookups_defined {M : List (String × Resource)}
    {C : List (String × List RelationDescr)} {g : RelationGraph}
    (hco : CoherentMap M) (hok : createGraphData M C = .ok g) :
    (∀ k, recordGet M k ≠ none → recordGet g.relations k ≠ none) ∧
    (∀ n e, recordGet g.relations n = some e →
      ∀ p ∈ e.relations, recordGet g.relations (p.2 : Relation).target.name ≠ none) ∧
    (∀ k, recordGet M k ≠ none → ∀ path,
      isValidRelationPathChecked g k path = some (isValidRelationPath g k path)) ∧
    (∀ k, recordGet M k ≠ none → ∀ maxDepth,
      getRelationPathsChecked g k maxDepth = some (getRelationPaths g k maxDepth)) := by
  have hcl : GraphClosed g := createGraphData_ok_closed hco hok
  have hkeys := createGraphData_ok_keys hok
  have hstart : ∀ k, recordGet M k ≠ none → getRelationsFor? g k ≠ none := by
    intro k hk
    have := hkeys k hk
    simp only [getRelationsFor?]
    rcases hres : recordGet g.relations k with _ | e
    · exact absurd hres this
    · simp
  refine ⟨hkeys, ?_, ?_, ?_⟩
  · intro n e hn p hp
    have := hcl n e hn p hp
    simp only [getRelationsFor?] at this
    rcases hres : recordGet g.relations (p.2 : Relation).target.name with _ | e'
    · rw [hres] at this
      simp at this
    · simp
  · intro k hk path
    by_cases hpath : path = ""
    · simp [isValidRelationPathChecked, isValidRelationPath, hpath]
    · simp only [isValidRelationPathChecked, isValidRelationPath, if_neg hpath]
      exact relationWalkChecked_agrees hcl _ k (hstart k hk)
  · intro k hk maxDepth
    exact getRelationPathsChecked_agrees hcl (hstart k hk) maxDepth

/-- Concrete user/post resource map used by several witnesses. -/
def demoMap : List (String × Resource) :=
  [("user", ⟨"user", []⟩), ("post", ⟨"post", []⟩)]

/-- Concrete declaration result: user declares posts, post declares its
author. -/
def demoConns : List (String × List RelationDescr) :=
  [("user", [⟨"posts", "post", .MANY⟩]), ("post", [⟨"author", "user", .ONE⟩])]

/-- The graph constructed from `demoMap` and `demoConns`. -/
def demoGraph : RelationGraph :=
  match createGraphData demoMap demoConns with
  | .ok g => g
  | .error _ => ⟨[], []⟩

theorem demoMap_coherent : CoherentMap demoMap := by
  intro p hp
  rcases List.mem_cons.1 hp with h | h
  · subst h; rfl
  · rcases List.mem_cons.1 h with h1 | h1
    · subst h1; rfl
    · simp at h1

/-- Witness for claim C10 at a concrete constructed graph. -/
theorem graph_invariant_lookups_defined_witness :
    createGraphData demoMap demoConns = .ok demoGraph ∧
    (∀ k, recordGet demoMap k ≠ none → recordGet demoGraph.relations k ≠ none) := by
  have hok : createGraphData demoMap demoConns = .ok demoGraph := rfl
  exact ⟨hok, (graph_invariant_lookups_defined demoMap_coherent hok).1⟩

/-! Claim C4: relation-path validity.  `SegmentsResolve` is the declarative
reading of the claim: every segment in sequence names a declared relation of
the current resource, each step moving to that relation's target.  On a
constructed graph the per-resource relation maps have unique names (they are
JavaScript object keys), so the declarative reading coincides with the
first-match walk of the implementation. -/

/-- Declarative resolution of a segment sequence against the relation maps. -/
def SegmentsResolve (g : RelationGraph) : String → List String → Prop
  | _, [] => True
  | cur, seg :: rest =>
    ∃ p ∈ getRelationsFor g cur, (p : String × Relation).1 = seg ∧
      SegmentsResolve g p.2.target.name rest

theorem processDescrs_ok_keys_nodup {M : List (String × Resource)} {sn : String}
    {sr : Resource} {ds : List RelationDescr} {pr : List (String × Relation)}
    {adj : List (String × List String)}
    {out : List (String × Relation) × List (String × List String)}
    (h : processDescrs M sn sr ds pr adj = .ok out)
    (hpr : (pr.map Prod.fst).Nodup) : (out.1.map Prod.fst).Nodup := by
  induction ds generalizing pr adj with
  | nil =>
    simp only [processDescrs] at h
    injection h with h
    subst h
    exact hpr
  | cons d0 rest ih =>
    simp only [processDescrs] at h
    by_cases hname : d0.name = ""
    · simp [hname] at h
    · rw [if_neg hname] at h
      rcases htgt : recordGet M d0.target with _ | tr
      · rw [htgt] at h
        simp at h
      · rw [htgt] at h
        exact ih h (recordSet_keys_nodup _ _ hpr)

theorem buildGraph_ok_relations_nodup {M : List (String × Resource)}
    {C : List (String × List RelationDescr)} {todo : List (String × Resource)}
    {rels : List (String × ResourceWithRelations)} {adj : List (String × List String)}
    {g : RelationGraph} (h : buildGraph M C todo rels adj = .ok g)
    (hrels : ∀ q ∈ rels, (((q.2 : ResourceWithRelations).relations).map Prod.fst).Nodup) :
    ∀ q ∈ g.relations, (((q.2 : ResourceWithRelations).relations).map Prod.fst).Nodup := by
  induction todo generalizing rels adj with
  | nil =>
    simp only [buildGraph] at h
    injection h with h
    subst h
    exact hrels
  | cons p0 rest ih =>
    obtain ⟨sn0, sr0⟩ := p0
    simp only [buildGraph] at h
    rcases hp : processDescrs M sn0 sr0 ((recordGet C sn0).getD []) [] adj with e | out
    · rw [hp] at h
      simp at h
    · rw [hp] at h
      apply ih h
      intro q hq
      rcases mem_recordSet_sub q hq with h1 | h1
      · subst h1
        exact processDescrs_ok_keys_nodup hp (by simp)
      · exact hrels q h1

/-- On a constructed graph, every relation map has unique relation names. -/
theorem graph_relations_keys_nodup {M : List (String × Resource)}
    {C : List (String × List RelationDescr)} {g : RelationGraph}
    (h : createGraphData M C = .ok g) (n : String) :
    ((getRelationsFor g n).map Prod.fst).Nodup := by
  simp only [getRelationsFor, getRelationsFor?]
  rcases hres : recordGet g.relations n with _ | e
  · simp
  · show ((e.relations).map Prod.fst).Nodup
    exact buildGraph_ok_relations_nodup h (by simp) (n, e) (recordGet_mem hres)

theorem relationWalk_iff {g : RelationGraph}
    (hnd : ∀ n, ((getRelationsFor g n).map Prod.fst).Nodup) :
    ∀ (segs : List String) (cur : String),
      relationWalk g segs cur = true ↔ SegmentsResolve g cur segs := by
  intro segs
  induction segs with
  | nil => intro cur; exact ⟨fun _ => trivial, fun _ => rfl⟩
  | cons seg rest ih =>
    intro cur
    simp only [relationWalk, SegmentsResolve]
    rcases hseg : recordGet (getRelationsFor g cur) seg with _ | rel
    · simp only [Bool.false_eq_true, false_iff]
      rintro ⟨p, hp, hfst, _⟩
      have := recordGet_eq_of_mem_nodup (hnd cur) (show (seg, p.2) ∈ _ by
        rw [← hfst]
        exact hp)
      rw [this] at hseg
      exact Option.noConfusion hseg
    · rw [ih]
      constructor
      · intro hres
        exact ⟨(seg, rel), recordGet_mem hseg, rfl, hres⟩
      · rintro ⟨p, hp, hfst, hres⟩
        have : recordGet (getRelationsFor g cur) seg = some p.2 :=
          recordGet_eq_of_mem_nodup (hnd cur) (by rw [← hfst]; exact hp)
        rw [this] at hseg
        injection hseg with hseg
        rw [← hseg]
        exact hres

/-- Claim C4: on a constructed graph, `isValidRelationPath` rejects the empty
path, and on any other path it returns `true` exactly when every
dot-separated segment, walked left to right from the starting resource,
names a declared relation of the current resource with each step moving to
that relation's target — equivalently, it returns `false` as soon as a
segment is absent. -/
theorem isValidRelationPath_spec {M : List (String × Resource)}
    {C : List (String × List RelationDescr)} {g : RelationGraph}
    (hok : createGraphData M C = .ok g) (r : String) (path : String) :
    isValidRelationPath g r "" = false ∧
    (isValidRelationPath g r path = true ↔
      path ≠ "" ∧ SegmentsResolve g r (splitOnDot path)) := by
  constructor
  · rfl
  · by_cases hpath : path = ""
    · simp [isValidRelationPath, hpath]
    · simp only [isValidRelationPath, if_neg hpath, ne_eq, hpath, not_false_eq_true,
        true_and]
      exact relationWalk_iff (graph_relations_keys_nodup hok) _ r

/-- Witness for claim C4 on the demo graph: the declared two-step chain
`posts.author` is valid, and the empty path is not. -/
theorem isValidRelationPath_spec_witness :
    isValidRelationPath demoGraph "user" "" = false ∧
    isValidRelationPath demoGraph "user" "posts.author" = true := by
  have h := @isValidRelationPath_spec demoMap demoConns demoGraph
    rfl "user" "posts.author"
  refine ⟨h.1, ?_⟩
  apply h.2.2
  refine ⟨by decide, ?_⟩
  rw [show splitOnDot "posts.author" = ["posts", "author"] from rfl]
  refine ⟨("posts", ⟨⟨"user", []⟩, ⟨"post", []⟩, "posts", .MANY⟩), ?_, rfl, ?_⟩
  · show _ ∈ [("posts", (⟨⟨"user", []⟩, ⟨"post", []⟩, "posts", .MANY⟩ : Relation))]
    exact List.mem_singleton.2 rfl
  · refine ⟨("author", ⟨⟨"post", []⟩, ⟨"user", []⟩, "author", .ONE⟩), ?_, rfl, trivial⟩
    show _ ∈ [("author", (⟨⟨"post", []⟩, ⟨"user", []⟩, "author", .ONE⟩ : Relation))]
    exact List.mem_singleton.2 rfl

/-! Claim C3: depth-bounded relation-path enumeration.  `ChainOk` is the
declarative description of one produced path: a sequence of relation names
followed link by link, where a resource already expanded on the same lineage
is not expanded again (the per-branch visited copy), while the final target
is unconstrained.  The claim additionally asserts that
`getRelationPaths r 0 = []`; the cited code pushes every direct relation
name before the depth guard can stop it, so depth 0 yields the direct
relation names instead — the claim is corrected accordingly. -/

/-- Declarative description of one enumerated relation-name chain under the
per-branch visited policy: the resource about to be expanded must not occur
in the visited set accumulated along this lineage. -/
def ChainOk (g : RelationGraph) : String → List String → List String → Prop
  | _, [], _ => True
  | cur, name :: rest, visited =>
    cur ∉ visited ∧ ∃ p ∈ getRelationsFor g cur, (p : String × Relation).1 = name ∧
      ChainOk g p.2.target.name rest (visited ++ [cur])

/-- A lineage-valid chain stays lineage-valid after dropping a suffix. -/
theorem ChainOk_prefix {g : RelationGraph} :
    ∀ (xs ys : List String) (cur : String) (visited : List String),
      ChainOk g cur (xs ++ ys) visited → ChainOk g cur xs visited := by
  intro xs
  induction xs with
  | nil => intro ys cur visited _; trivial
  | cons n rest ih =>
    rintro ys cur visited ⟨hnv, p, hp, hn, hchain⟩
    exact ⟨hnv, p, hp, hn, ih ys _ _ hchain⟩

theorem collectRelationPaths_mem {g : RelationGraph} :
    ∀ (d : Nat) (cur pre : String) (visited : List String) (path : String),
      path ∈ collectRelationPaths g d cur pre visited ↔
        ∃ names, names ≠ [] ∧ names.length ≤ d ∧
          path = pre ++ "." ++ joinDot names ∧ ChainOk g cur names visited := by
  intro d
  induction d with
  | zero =>
    intro cur pre visited path
    simp only [collectRelationPaths, List.not_mem_nil, false_iff]
    rintro ⟨names, hne, hlen, _, _⟩
    cases names with
    | nil => exact hne rfl
    | cons n rest => simp at hlen
  | succ d ih =>
    intro cur pre visited path
    by_cases hv : cur ∈ visited
    · simp only [collectRelationPaths, if_pos hv, List.not_mem_nil, false_iff]
      rintro ⟨names, hne, hlen, _, hchain⟩
      cases names with
      | nil => exact hne rfl
      | cons n rest => exact hchain.1 hv
    · simp only [collectRelationPaths, if_neg hv, List.mem_flatMap]
      constructor
      · rintro ⟨p, hp, hmem⟩
        rcases List.mem_cons.1 hmem with hpath | hpath
        · refine ⟨[p.1], by simp, by simp, by simpa [joinDot] using hpath, ?_⟩
          exact ⟨hv, p, hp, rfl, trivial⟩
        · rcases (ih _ _ _ _).1 hpath with ⟨names', hne', hlen', hpath', hchain'⟩
          refine ⟨p.1 :: names', by simp, by simpa using Nat.succ_le_succ hlen', ?_, ?_⟩
          · rw [joinDot_cons hne', hpath']
            simp [String.append_assoc]
          · exact ⟨hv, p, hp, rfl, hchain'⟩
      · rintro ⟨names, hne, hlen, hpath, hchain⟩
        cases names with
        | nil => exact absurd rfl hne
        | cons n rest =>
          obtain ⟨-, p, hp, hn, hchain'⟩ := hchain
          subst hn
          refine ⟨p, hp, ?_⟩
          cases rest with
          | nil =>
            rw [hpath]
            exact List.mem_cons_self _ _
          | cons m ms =>
            apply List.mem_cons_of_mem
            apply (ih _ _ _ _).2
            refine ⟨m :: ms, by simp, ?_, ?_, hchain'⟩
            · simpa using Nat.le_of_succ_le_succ hlen
            · rw [hpath, joinDot_cons (by simp)]
              simp [String.append_assoc]

/-- Claim C3, counterexample to the claim as stated: on a constructed graph
whose `user` resource declares one relation, `getRelationPaths user 0` is
the singleton list of the direct relation name, not the empty array the
claim demands. -/
theorem getRelationPaths_depth_zero_not_empty :
    createGraphData demoMap demoConns = .ok demoGraph ∧
    getRelationPaths demoGraph "user" 0 = ["posts"] ∧
    getRelationPaths demoGraph "user" 0 ≠ [] :=
  ⟨rfl, rfl, by decide⟩

/-- Claim C3, amended: `getRelationPaths r d` returns exactly the
separator-joined relation-name chains of length `1` through `max d 1` that
are lineage-valid under the per-branch visited policy (`ChainOk` with an
empty initial visited set; sibling branches may revisit resources because
each recursive call receives a fresh copy of the visited set, and only the
resources actually expanded along the lineage are excluded).  Every partial
prefix of a producible chain appears as its own entry, and at depth `0` the
result is the list of direct relation names (not empty: the direct names
are pushed before the depth guard applies). -/
theorem getRelationPaths_spec (g : RelationGraph) (r : String) (d : Nat) (path : String) :
    (path ∈ getRelationPaths g r d ↔
      ∃ names, names ≠ [] ∧ names.length ≤ max d 1 ∧
        path = joinDot names ∧ ChainOk g r names []) ∧
    (∀ ns1 ns2, ns1 ≠ [] → (ns1 ++ ns2).length ≤ max d 1 →
      ChainOk g r (ns1 ++ ns2) [] → joinDot ns1 ∈ getRelationPaths g r d) ∧
    getRelationPaths g r 0 = (getRelationsFor g r).map Prod.fst := by
  have hchar : ∀ q, q ∈ getRelationPaths g r d ↔
      ∃ names, names ≠ [] ∧ names.length ≤ max d 1 ∧
        q = joinDot names ∧ ChainOk g r names [] := by
    intro q
    simp only [getRelationPaths, List.mem_flatMap]
    constructor
    · rintro ⟨p, hp, hmem⟩
      rcases List.mem_cons.1 hmem with hpath | hpath
      · refine ⟨[p.1], by simp, by simp [Nat.le_max_right], by simpa [joinDot] using hpath, ?_⟩
        exact ⟨by simp, p, hp, rfl, trivial⟩
      · rcases (collectRelationPaths_mem _ _ _ _ _).1 hpath with
          ⟨names', hne', hlen', hpath', hchain'⟩
        refine ⟨p.1 :: names', by simp, ?_, ?_, ?_⟩
        · have h1 : 1 ≤ names'.length := Nat.one_le_iff_ne_zero.2 (by
            intro h0
            exact hne' (List.length_eq_zero.1 h0))
          simp only [List.length_cons]
          omega
        · rw [joinDot_cons hne', hpath']
        · exact ⟨by simp, p, hp, rfl, hchain'⟩
    · rintro ⟨names, hne, hlen, hpath, hchain⟩
      cases names with
      | nil => exact absurd rfl hne
      | cons n rest =>
        obtain ⟨-, p, hp, hn, hchain'⟩ := hchain
        subst hn
        refine ⟨p, hp, ?_⟩
        cases rest with
        | nil =>
          rw [hpath]
          exact List.mem_cons_self _ _
        | cons m ms =>
          apply List.mem_cons_of_mem
          apply (collectRelationPaths_mem _ _ _ _ _).2
          refine ⟨m :: ms, by simp, ?_, ?_, hchain'⟩
          · simp only [List.length_cons] at hlen ⊢
            omega
          · rw [hpath, joinDot_cons (by simp)]
  refine ⟨hchar path, ?_, ?_⟩
  · intro ns1 ns2 hne hlen hchain
    apply (hchar _).2
    refine ⟨ns1, hne, ?_, rfl, ChainOk_prefix ns1 ns2 r [] hchain⟩
    calc ns1.length ≤ (ns1 ++ ns2).length := by simp
    _ ≤ max d 1 := hlen
  · simp only [getRelationPaths, collectRelationPaths]
    induction (getRelationsFor g r) with
    | nil => rfl
    | cons p ps ihl => simp [ihl]

/-- Witness for the amended claim C3 on the demo graph: the prefix clause
applied to the lineage-valid chain `posts.author` puts the prefix `posts`
in the enumeration at depth 4. -/
theorem getRelationPaths_spec_witness :
    joinDot ["posts"] ∈ getRelationPaths demoGraph "user" 4 := by
  apply (getRelationPaths_spec demoGraph "user" 4 "posts").2.1 ["posts"] ["author"]
    (by simp) (by simp)
  refine ⟨by simp, ("posts", ⟨⟨"user", []⟩, ⟨"post", []⟩, "posts", .MANY⟩), ?_, rfl, ?_⟩
  · show _ ∈ [("posts", (⟨⟨"user", []⟩, ⟨"post", []⟩, "posts", .MANY⟩ : Relation))]
    exact List.mem_singleton.2 rfl
  · refine ⟨by decide, ("author", ⟨⟨"post", []⟩, ⟨"user", []⟩, "author", .ONE⟩), ?_, rfl,
      trivial⟩
    show _ ∈ [("author", (⟨⟨"post", []⟩, ⟨"user", []⟩, "author", .ONE⟩ : Relation))]
    exact List.mem_singleton.2 rfl

/-! Claim C8: with caching enabled and within the TTL, the cached
`validatePath` result is keyed solely by `(resource.name, path)`.  Two
consecutive calls on a fresh key return the result computed from the first
resource, even when the second call passes a structurally different
resource instance carrying the same name. -/

/-- Claim C8: with caching enabled, a first call on a key that misses
computes and returns `doValidatePath` of its resource, and a second call
within the TTL with any resource of the same name and the same path returns
that cached first result — structural equality of the two results and
independence from the second resource's attribute tree. -/
theorem validatePath_cache_keyed_by_name (ttl : Nat) (st : EphemeralCache)
    (now now2 : Nat) (r1 r2 : Resource) (path : String)
    (hname : r1.name = r2.name)
    (hmiss : (cacheGet st (getCacheKey r1 path) now).1 = none)
    (httl : now2 ≤ now + ttl) :
    (validatePathCached ttl st now r1 path).1 = doValidatePath r1 path ∧
    (validatePathCached ttl (validatePathCached ttl st now r1 path).2 now2 r2 path).1 =
      doValidatePath r1 path := by
  have hkey : getCacheKey r2 path = getCacheKey r1 path := by
    simp [getCacheKey, hname]
  rcases hget : cacheGet st (getCacheKey r1 path) now with ⟨o, c'⟩
  have ho : o = none := by
    rw [hget] at hmiss
    exact hmiss
  subst ho
  have hfirst : validatePathCached ttl st now r1 path =
      (doValidatePath r1 path,
        cacheSet c' (getCacheKey r1 path) (doValidatePath r1 path) (now + ttl)) := by
    simp only [validatePathCached, hget]
  refine ⟨by rw [hfirst], ?_⟩
  rw [hfirst]
  simp only [validatePathCached, hkey]
  have hstored : recordGet (cacheSet c' (getCacheKey r1 path) (doValidatePath r1 path)
      (now + ttl)).entries (getCacheKey r1 path) =
      some (now + ttl, doValidatePath r1 path) :=
    recordGet_recordSet_self _ _ _
  simp only [cacheGet, hstored]
  rw [if_neg (by omega)]

/-- Concrete resource with one string attribute, sharing its name with
`emptyUserResource` below. -/
def stringUserResource : Resource := { name := "user", attributes := [("a", .prim .string)] }

/-- Concrete resource with the same name and an empty attribute tree. -/
def emptyUserResource : Resource := { name := "user", attributes := [] }

/-- Witness for claim C8: starting from an empty cache at time 0, validating
`a` against the attribute-bearing resource and then, at time 1, against the
attribute-less resource of the same name returns the first result both
times, although direct validation of the two resources disagrees. -/
theorem validatePath_cache_keyed_by_name_witness :
    (validatePathCached 60000 ⟨[]⟩ 0 stringUserResource "a").1 =
      doValidatePath stringUserResource "a" ∧
    (validatePathCached 60000 (validatePathCached 60000 ⟨[]⟩ 0 stringUserResource "a").2 1
        emptyUserResource "a").1 = doValidatePath stringUserResource "a" ∧
    (doValidatePath stringUserResource "a").valid = true ∧
    (doValidatePath emptyUserResource "a").valid = false := by
  have h := validatePath_cache_keyed_by_name 60000 ⟨[]⟩ 0 1 stringUserResource
    emptyUserResource "a" rfl rfl (by omega)
  exact ⟨h.1, h.2, rfl, rfl⟩

/-! Claim C1: breadth-first shortest path.  `IsPath` is the standard notion
of a directed path over the adjacency list (a vertex sequence from the start
to the end resource following outgoing edges); the BFS of
`findShortestPath` is proved sound (a returned path is a real path of
minimum vertex count), complete (`null` exactly when no path exists) and
immediate on equal endpoints. -/

/-- Directed edge of the graph: `v` is among the outgoing adjacency targets
of `u`. -/
def adjacent (g : RelationGraph) (u v : String) : Prop :=
  v ∈ getAdjacentResources g u

/-- Directed paths over the adjacency list, as vertex sequences; a path from
`u` to `w` starts at `u`, ends at `w` and follows edges.  The hop count of a
path is its length minus one, so comparing lengths compares hop counts. -/
inductive IsPath (g : RelationGraph) : String → String → List String → Prop
  | single (u : String) : IsPath g u u [u]
  | snoc {u v w : String} {p : List String} :
      IsPath g u v p → adjacent g v w → IsPath g u w (p ++ [w])

theorem IsPath.length_pos {g : RelationGraph} {u v : String} {p : List String}
    (h : IsPath g u v p) : 1 ≤ p.length := by
  cases h with
  | single => simp
  | snoc h1 h2 => simp

theorem IsPath.head_eq {g : RelationGraph} {u v : String} {p : List String}
    (h : IsPath g u v p) : p.head? = some u := by
  induction h with
  | single => rfl
  | snoc h1 h2 ih =>
    rename_i p'
    rcases p' with _ | ⟨a, rest⟩
    · exact absurd h1.length_pos (by simp)
    · simpa using ih

theorem IsPath.last_eq {g : RelationGraph} {u v : String} {p : List String}
    (h : IsPath g u v p) : p.getLast? = some v := by
  cases h with
  | single => rfl
  | snoc h1 h2 => simp

theorem mem_allTargets {g : RelationGraph} {u x : String}
    (h : x ∈ getAdjacentResources g u) : x ∈ allTargets g := by
  simp only [getAdjacentResources] at h
  rcases hres : recordGet g.adjacencyList u with _ | l
  · rw [hres] at h
    simp at h
  · rw [hres] at h
    simp only [Option.getD_some] at h
    exact List.mem_flatten.2 ⟨l, List.mem_map_of_mem Prod.snd (recordGet_mem hres), h⟩

/-- The queue entry created when `next` is discovered from a node whose
discovery path is `path`. -/
def bfsChild (path : List String) (n : String) : QueueEntry := ⟨n, path ++ [n]⟩

/-- Loop invariant of the BFS of `findShortestPath`, for a search from `f`
towards `t` with the given queue and visited set. -/
structure BfsInv (g : RelationGraph) (f t : String) (queue : List QueueEntry)
    (visited : List String) : Prop where
  paths_valid : ∀ e ∈ queue, IsPath g f (e : QueueEntry).resourceName e.path
  endpoints_visited : ∀ e ∈ queue, (e : QueueEntry).resourceName ∈ visited
  from_visited : f ∈ visited
  target_not_visited : t ∉ visited
  visited_nodup : visited.Nodup
  visited_sub : ∀ x ∈ visited, x = f ∨ x ∈ allTargets g
  names_nodup : (queue.map QueueEntry.resourceName).Nodup
  sorted : (queue.map fun e => e.path.length).Pairwise (· ≤ ·)
  spread : ∀ e₁ ∈ queue, ∀ e₂ ∈ queue,
    (e₂ : QueueEntry).path.length ≤ (e₁ : QueueEntry).path.length + 1
  minimal : ∀ e ∈ queue, ∀ q, IsPath g f (e : QueueEntry).resourceName q →
    (e : QueueEntry).path.length ≤ q.length
  closed : ∀ w ∈ visited, (∀ e ∈ queue, (e : QueueEntry).resourceName ≠ w) →
    ∀ v, adjacent g w v → v ∈ visited

theorem BfsInv.head_min {g : RelationGraph} {f t : String} {cur : QueueEntry}
    {rest : List QueueEntry} {visited : List String}
    (inv : BfsInv g f t (cur :: rest) visited) :
    ∀ e ∈ cur :: rest, cur.path.length ≤ (e : QueueEntry).path.length := by
  intro e he
  rcases List.mem_cons.1 he with h | h
  · subst h
    exact Nat.le_refl _
  · have hs := inv.sorted
    rw [List.map_cons] at hs
    exact (List.pairwise_cons.1 hs).1 _ (List.mem_map_of_mem _ h)

theorem BfsInv.visited_le {g : RelationGraph} {f t : String} {queue : List QueueEntry}
    {visited : List String} (inv : BfsInv g f t queue visited) :
    visited.length ≤ 1 + (allTargets g).length := by
  have hsub : visited ⊆ f :: allTargets g := by
    intro x hx
    rcases inv.visited_sub x hx with h | h
    · simp [h]
    · exact List.mem_cons_of_mem _ h
  have := (List.subperm_of_subset inv.visited_nodup hsub).length_le
  simp only [List.length_cons] at this
  omega

/-- The frontier lemma: any resource admitting a path strictly shorter than
every queued discovery path has already been fully expanded (it is visited
and no longer queued).  In particular, with an empty queue, every resource
reachable from `f` is fully expanded. -/
theorem bfs_frontier {g : RelationGraph} {f t : String} {queue : List QueueEntry}
    {visited : List String} (inv : BfsInv g f t queue visited) :
    ∀ (n : Nat) (q : List String) (u : String), q.length ≤ n → IsPath g f u q →
      (∀ e ∈ queue, q.length < (e : QueueEntry).path.length) →
      u ∈ visited ∧ ∀ e ∈ queue, (e : QueueEntry).resourceName ≠ u := by
  intro n
  induction n with
  | zero =>
    intro q u hlen hpath _
    exact absurd (Nat.le_trans hpath.length_pos hlen) (by omega)
  | succ n ih =>
    intro q u hlen hpath hbound
    have hnotq : ∀ e ∈ queue, (e : QueueEntry).resourceName ≠ u := by
      intro e he heq
      have hmin := inv.minimal e he q (heq ▸ hpath)
      exact absurd (Nat.lt_of_lt_of_le (hbound e he) hmin) (by omega)
    refine ⟨?_, hnotq⟩
    cases hpath with
    | single => exact inv.from_visited
    | snoc h1 h2 =>
      rename_i w p'
      have hlen' : p'.length ≤ n := by
        simp only [List.length_append, List.length_cons, List.length_nil] at hlen
        omega
      have hbound' : ∀ e ∈ queue, p'.length < (e : QueueEntry).path.length := by
        intro e he
        have := hbound e he
        simp only [List.length_append, List.length_cons, List.length_nil] at this
        omega
      obtain ⟨hwvis, hwproc⟩ := ih p' w hlen' h1 hbound'
      exact inv.closed w hwvis hwproc u h2

/-- Level minimality: when the head of the queue is being expanded, any
resource not yet visited — in particular the search target — admits no path
shorter than one hop beyond the head's discovery path. -/
theorem bfs_level_minimal {g : RelationGraph} {f t : String} {cur : QueueEntry}
    {rest : List QueueEntry} {visited : List String}
    (inv : BfsInv g f t (cur :: rest) visited) {x : String} (hx : x ∉ visited) :
    ∀ qq, IsPath g f x qq → cur.path.length + 1 ≤ qq.length := by
  intro qq hqq
  by_contra hcon
  push_neg at hcon
  have hle : qq.length ≤ cur.path.length := by omega
  cases hqq with
  | single => exact hx inv.from_visited
  | snoc h1 h2 =>
    rename_i w p'
    have hbound : ∀ e ∈ cur :: rest, p'.length < (e : QueueEntry).path.length := by
      intro e he
      have h3 := inv.head_min e he
      simp only [List.length_append, List.length_cons, List.length_nil] at hle
      omega
    obtain ⟨hwvis, hwproc⟩ := bfs_frontier inv p'.length p' w (Nat.le_refl _) h1 hbound
    exact hx (inv.closed w hwvis hwproc x h2)

theorem bfsChild_path_length (p : List String) (n : String) :
    (bfsChild p n).path.length = p.length + 1 := by
  simp [bfsChild]

theorem map_name_bfsChild (p : List String) (l : List String) :
    l.map (QueueEntry.resourceName ∘ bfsChild p) = l := by
  induction l with
  | nil => rfl
  | cons a l ih =>
    simp only [List.map_cons, ih, Function.comp]
    rfl

theorem map_length_bfsChild (p : List String) (l : List String) :
    l.map ((fun e => (e : QueueEntry).path.length) ∘ bfsChild p) =
      l.map (fun _ => p.length + 1) := by
  induction l with
  | nil => rfl
  | cons a l ih =>
    simp only [List.map_cons, ih, Function.comp]
    rw [bfsChild_path_length]

theorem pairwise_map_const_le {α : Type} (c : Nat) (l : List α) :
    (l.map fun _ => c).Pairwise (· ≤ ·) := by
  induction l with
  | nil => simp
  | cons a l ih =>
    simp only [List.map_cons, List.pairwise_cons]
    refine ⟨fun b hb => ?_, ih⟩
    rcases List.mem_map.1 hb with ⟨x, _, rfl⟩
    exact Nat.le_refl _

/-- Correctness of one full expansion of the queue head: scanning the
remaining adjacency list either returns the extension of the head's path by
the target — a genuine shortest path — or finishes the scan with the
invariant re-established on the new queue and visited set.  The list `newN`
records the neighbours already discovered during this scan. -/
theorem bfsExpand_spec {g : RelationGraph} {f t : String} {cur : QueueEntry}
    {rest : List QueueEntry} {visited0 : List String}
    (inv : BfsInv g f t (cur :: rest) visited0) :
    ∀ (as newN : List String),
      (∀ x ∈ as, adjacent g cur.resourceName x) →
      newN.Nodup →
      (∀ x ∈ newN, x ∉ visited0 ∧ x ≠ t ∧ adjacent g cur.resourceName x) →
      (∀ x, adjacent g cur.resourceName x → x ∈ as ∨ (x ∈ visited0 ++ newN ∧ x ≠ t)) →
      (∃ found, bfsExpand t cur.path as (rest ++ newN.map (bfsChild cur.path))
          (visited0 ++ newN) = .inl found ∧
        found = cur.path ++ [t] ∧ IsPath g f t found ∧
        ∀ q, IsPath g f t q → found.length ≤ q.length) ∨
      (∃ newN', bfsExpand t cur.path as (rest ++ newN.map (bfsChild cur.path))
          (visited0 ++ newN) = .inr (rest ++ newN'.map (bfsChild cur.path),
            visited0 ++ newN') ∧
        BfsInv g f t (rest ++ newN'.map (bfsChild cur.path)) (visited0 ++ newN')) := by
  have hc : cur ∈ cur :: rest := List.mem_cons_self _ _
  intro as
  induction as with
  | nil =>
    intro newN hAs hnodup hnew handled
    right
    refine ⟨newN, rfl, ?_⟩
    have hAdjDone : ∀ x, adjacent g cur.resourceName x →
        x ∈ visited0 ++ newN ∧ x ≠ t := by
      intro x hx
      rcases handled x hx with h | h
      · simp at h
      · exact h
    have hrestN : ∀ e ∈ rest, (e : QueueEntry).resourceName ∈ visited0 :=
      fun e he => inv.endpoints_visited e (List.mem_cons_of_mem _ he)
    refine ⟨?_, ?_, ?_, ?_, ?_, ?_, ?_, ?_, ?_, ?_, ?_⟩
    · -- paths_valid
      intro e he
      rcases List.mem_append.1 he with h | h
      · exact inv.paths_valid e (List.mem_cons_of_mem _ h)
      · rcases List.mem_map.1 h with ⟨n, hn, rfl⟩
        exact IsPath.snoc (inv.paths_valid cur hc) (hnew n hn).2.2
    · -- endpoints_visited
      intro e he
      rcases List.mem_append.1 he with h | h
      · exact List.mem_append_left _ (hrestN e h)
      · rcases List.mem_map.1 h with ⟨n, hn, rfl⟩
        exact List.mem_append_right _ hn
    · -- from_visited
      exact List.mem_append_left _ inv.from_visited
    · -- target_not_visited
      intro h
      rcases List.mem_append.1 h with h | h
      · exact inv.target_not_visited h
      · exact (hnew t h).2.1 rfl
    · -- visited_nodup
      exact inv.visited_nodup.append hnodup (fun a ha hb => (hnew a hb).1 ha)
    · -- visited_sub
      intro x hx
      rcases List.mem_append.1 hx with h | h
      · exact inv.visited_sub x h
      · exact Or.inr (mem_allTargets (hnew x h).2.2)
    · -- names_nodup
      have hmap : (rest ++ newN.map (bfsChild cur.path)).map QueueEntry.resourceName
          = rest.map QueueEntry.resourceName ++ newN := by
        rw [List.map_append, List.map_map, map_name_bfsChild]
      rw [hmap]
      have hrest : (rest.map QueueEntry.resourceName).Nodup := by
        have := inv.names_nodup
        rw [List.map_cons] at this
        exact (List.nodup_cons.1 this).2
      refine hrest.append hnodup ?_
      intro a ha hb
      rcases List.mem_map.1 ha with ⟨e, he, rfl⟩
      exact (hnew _ hb).1 (hrestN e he)
    · -- sorted
      have hmapl : (rest ++ newN.map (bfsChild cur.path)).map (fun e => e.path.length)
          = rest.map (fun e => (e : QueueEntry).path.length)
            ++ newN.map (fun _ => cur.path.length + 1) := by
        rw [List.map_append, List.map_map, map_length_bfsChild]
      rw [hmapl]
      apply List.pairwise_append.2
      refine ⟨?_, pairwise_map_const_le _ _, ?_⟩
      · have := inv.sorted
        rw [List.map_cons] at this
        exact (List.pairwise_cons.1 this).2
      · intro a ha b hb
        rcases List.mem_map.1 ha with ⟨e, he, rfl⟩
        rcases List.mem_map.1 hb with ⟨n, hn, rfl⟩
        exact inv.spread cur hc e (List.mem_cons_of_mem _ he)
    · -- spread
      intro e₁ he₁ e₂ he₂
      rcases List.mem_append.1 he₁ with h1 | h1 <;> rcases List.mem_append.1 he₂ with h2 | h2
      · exact inv.spread e₁ (List.mem_cons_of_mem _ h1) e₂ (List.mem_cons_of_mem _ h2)
      · rcases List.mem_map.1 h2 with ⟨n, hn, rfl⟩
        rw [bfsChild_path_length]
        have := inv.head_min e₁ (List.mem_cons_of_mem _ h1)
        omega
      · rcases List.mem_map.1 h1 with ⟨n, hn, rfl⟩
        rw [bfsChild_path_length]
        have := inv.spread cur hc e₂ (List.mem_cons_of_mem _ h2)
        omega
      · rcases List.mem_map.1 h1 with ⟨n, hn, rfl⟩
        rcases List.mem_map.1 h2 with ⟨m, hm, rfl⟩
        rw [bfsChild_path_length, bfsChild_path_length]
        omega
    · -- minimal
      intro e he q hq
      rcases List.mem_append.1 he with h | h
      · exact inv.minimal e (List.mem_cons_of_mem _ h) q hq
      · rcases List.mem_map.1 h with ⟨n, hn, rfl⟩
        rw [bfsChild_path_length]
        exact bfs_level_minimal inv (hnew n hn).1 q hq
    · -- closed
      intro w hw hproc v hv
      rcases List.mem_append.1 hw with h | h
      · by_cases hwc : w = cur.resourceName
        · subst hwc
          exact (hAdjDone v hv).1
        · have hproc0 : ∀ e ∈ cur :: rest, (e : QueueEntry).resourceName ≠ w := by
            intro e he
            rcases List.mem_cons.1 he with he1 | he1
            · subst he1
              exact fun hh => hwc hh.symm
            · exact hproc e (List.mem_append_left _ he1)
          exact List.mem_append_left _ (inv.closed w h hproc0 v hv)
      · exfalso
        exact hproc (bfsChild cur.path w)
          (List.mem_append_right _ (List.mem_map_of_mem _ h)) rfl
  | cons x as' ih =>
    intro newN hAs hnodup hnew handled
    by_cases hxt : x = t
    · left
      subst hxt
      refine ⟨cur.path ++ [x], by simp [bfsExpand], rfl, ?_, ?_⟩
      · exact IsPath.snoc (inv.paths_valid cur hc) (hAs x (List.mem_cons_self _ _))
      · intro q hq
        have := bfs_level_minimal inv inv.target_not_visited q hq
        simp only [List.length_append, List.length_cons, List.length_nil]
        omega
    · by_cases hxv : x ∈ visited0 ++ newN
      · have hstep : bfsExpand t cur.path (x :: as')
            (rest ++ newN.map (bfsChild cur.path)) (visited0 ++ newN)
            = bfsExpand t cur.path as'
              (rest ++ newN.map (bfsChild cur.path)) (visited0 ++ newN) := by
          simp only [bfsExpand, if_neg hxt, if_pos hxv]
        rw [hstep]
        refine ih newN (fun y hy => hAs y (List.mem_cons_of_mem _ hy)) hnodup hnew ?_
        intro y hy
        rcases handled y hy with h | h
        · rcases List.mem_cons.1 h with h1 | h1
          · subst h1
            exact Or.inr ⟨hxv, hxt⟩
          · exact Or.inl h1
        · exact Or.inr h
      · have hstep : bfsExpand t cur.path (x :: as')
            (rest ++ newN.map (bfsChild cur.path)) (visited0 ++ newN)
            = bfsExpand t cur.path as'
              (rest ++ (newN ++ [x]).map (bfsChild cur.path))
              (visited0 ++ (newN ++ [x])) := by
          simp only [bfsExpand, if_neg hxt, if_neg hxv]
          rw [List.map_append, List.append_assoc, List.append_assoc]
          rfl
        rw [hstep]
        refine ih (newN ++ [x]) (fun y hy => hAs y (List.mem_cons_of_mem _ hy)) ?_ ?_ ?_
        · refine hnodup.append (List.nodup_singleton x) ?_
          intro a ha hb
          rw [List.mem_singleton] at hb
          subst hb
          exact hxv (List.mem_append_right _ ha)
        · intro y hy
          rcases List.mem_append.1 hy with h | h
          · exact hnew y h
          · rw [List.mem_singleton] at h
            subst h
            exact ⟨fun hcv => hxv (List.mem_append_left _ hcv), hxt,
              hAs y (List.mem_cons_self _ _)⟩
        · intro y hy
          rcases handled y hy with h | h
          · rcases List.mem_cons.1 h with h1 | h1
            · subst h1
              exact Or.inr ⟨List.mem_append_right _
                (List.mem_append_right _ (List.mem_singleton.2 rfl)), hxt⟩
            · exact Or.inl h1
          · rcases h with ⟨hmem, hne⟩
            refine Or.inr ⟨?_, hne⟩
            rcases List.mem_append.1 hmem with h2 | h2
            · exact List.mem_append_left _ h2
            · exact List.mem_append_right _ (List.mem_append_left _ h2)

/-- Correctness of the BFS loop under the invariant, with enough fuel to
outlast it: a returned path is a shortest path from f to t, and if any path
exists one is returned. -/
theorem bfsLoop_spec {g : RelationGraph} {f t : String} :
    ∀ (fuel : Nat) (queue : List QueueEntry) (visited : List String),
      BfsInv g f t queue visited →
      queue.length + (1 + (allTargets g).length) ≤ visited.length + fuel →
      (∀ p, bfsLoop g t fuel queue visited = some p →
        IsPath g f t p ∧ ∀ q, IsPath g f t q → p.length ≤ q.length) ∧
      ((∃ q, IsPath g f t q) → ∃ p, bfsLoop g t fuel queue visited = some p) := by
  intro fuel
  induction fuel with
  | zero =>
    intro queue visited inv hfuel
    have hv := inv.visited_le
    have hq : queue = [] := List.length_eq_zero.1 (by omega)
    subst hq
    constructor
    · intro p hp
      simp [bfsLoop] at hp
    · rintro ⟨q, hq⟩
      exfalso
      have := bfs_frontier inv q.length q t (Nat.le_refl _) hq (by simp)
      exact inv.target_not_visited this.1
  | succ fuel ih =>
    intro queue visited inv hfuel
    rcases queue with _ | ⟨cur, rest⟩
    · constructor
      · intro p hp
        simp [bfsLoop] at hp
      · rintro ⟨q, hq⟩
        exfalso
        have := bfs_frontier inv q.length q t (Nat.le_refl _) hq (by simp)
        exact inv.target_not_visited this.1
    · have hexp := bfsExpand_spec inv (getAdjacentResources g cur.resourceName) []
        (fun x hx => hx) List.nodup_nil (by simp) (fun x hx => Or.inl hx)
      rw [List.map_nil, List.append_nil, List.append_nil] at hexp
      rcases hexp with ⟨found, hfound, heq, hpath, hmin⟩ | ⟨newN', hstep, inv'⟩
      · constructor
        · intro p hp
          simp only [bfsLoop, hfound] at hp
          injection hp with hp
          subst hp
          exact ⟨hpath, hmin⟩
        · intro _
          exact ⟨found, by simp [bfsLoop, hfound]⟩
      · have hloopeq : bfsLoop g t (fuel + 1) (cur :: rest) visited
            = bfsLoop g t fuel (rest ++ newN'.map (bfsChild cur.path))
              (visited ++ newN') := by
          simp only [bfsLoop, hstep]
        rw [hloopeq]
        apply ih _ _ inv'
        simp only [List.length_append, List.length_map, List.length_cons] at hfuel ⊢
        omega

/-- Claim C1: findShortestPath returns the singleton path when the endpoints
agree; it returns none exactly when no directed path over the adjacency list
leads from the start to the target; and any returned path is a directed path
starting at the start name and ending at the target name whose length, hence
hop count, is minimal among all directed paths between the two.  The
statement quantifies over all resource names, in particular over every pair
drawn from the graph's resource map. -/
theorem findShortestPath_spec (g : RelationGraph) (f t : String) :
    (f = t → findShortestPath g f t = some [f]) ∧
    (findShortestPath g f t = none ↔ ¬ ∃ p, IsPath g f t p) ∧
    (∀ p, findShortestPath g f t = some p →
      p.head? = some f ∧ p.getLast? = some t ∧ IsPath g f t p ∧
        ∀ q, IsPath g f t q → p.length ≤ q.length) := by
  by_cases hft : f = t
  · subst hft
    refine ⟨fun _ => by simp [findShortestPath], ?_, ?_⟩
    · simp only [findShortestPath, if_pos rfl]
      constructor
      · intro h
        exact absurd h (by simp)
      · intro h
        exact absurd ⟨[f], IsPath.single f⟩ h
    · intro p hp
      simp only [findShortestPath, if_pos rfl] at hp
      injection hp with hp
      subst hp
      exact ⟨rfl, rfl, IsPath.single f, fun q hq => hq.length_pos⟩
  · have inv0 : BfsInv g f t [⟨f, [f]⟩] [f] := by
      refine ⟨?_, ?_, ?_, ?_, ?_, ?_, ?_, ?_, ?_, ?_, ?_⟩
      · intro e he
        rw [List.mem_singleton] at he
        subst he
        exact IsPath.single f
      · intro e he
        rw [List.mem_singleton] at he
        subst he
        exact List.mem_singleton.2 rfl
      · exact List.mem_singleton.2 rfl
      · intro h
        exact hft (List.mem_singleton.1 h).symm
      · exact List.nodup_singleton f
      · intro x hx
        exact Or.inl (List.mem_singleton.1 hx)
      · exact List.nodup_singleton f
      · simp
      · intro e₁ he₁ e₂ he₂
        rw [List.mem_singleton] at he₁ he₂
        subst he₁
        subst he₂
        simp
      · intro e he q hq
        rw [List.mem_singleton] at he
        subst he
        exact hq.length_pos
      · intro w hw hproc v hv
        rw [List.mem_singleton] at hw
        subst hw
        exact absurd rfl (hproc ⟨w, [w]⟩ (List.mem_singleton.2 rfl))
    have hspec := bfsLoop_spec (1 + (allTargets g).length) [⟨f, [f]⟩] [f] inv0 (by simp)
    refine ⟨fun h => absurd h hft, ?_, ?_⟩
    · simp only [findShortestPath, if_neg hft]
      constructor
      · intro hnone hex
        rcases hspec.2 hex with ⟨p, hp⟩
        rw [hp] at hnone
        exact Option.noConfusion hnone
      · intro hno
        rcases hres : bfsLoop g t (1 + (allTargets g).length) [⟨f, [f]⟩] [f] with _ | p
        · rfl
        · exact absurd ⟨p, (hspec.1 p hres).1⟩ hno
    · intro p hp
      simp only [findShortestPath, if_neg hft] at hp
      have hsound := hspec.1 p hp
      exact ⟨hsound.1.head_eq, hsound.1.last_eq, hsound.1, hsound.2⟩

/-- Witness for claim C1: on the demo graph, the equal-endpoint case returns
the singleton path. -/
theorem findShortestPath_spec_witness :
    findShortestPath demoGraph "user" "user" = some ["user"] :=
  (findShortestPath_spec demoGraph "user" "user").1 rfl

/-- A path segment with no separator character and no trailing array or
optional marker. -/
def PlainSeg (s : String) : Prop :=
  s ≠ "" ∧ DotFree s ∧ isArraySegment s = false ∧ isOptionalSegment s = false

instance (s : String) : Decidable (DotFree s) :=
  inferInstanceAs (Decidable (('.' : Char) ∉ s.data))

instance (s : String) : Decidable (PlainSeg s) :=
  inferInstanceAs (Decidable (s ≠ "" ∧ DotFree s ∧ isArraySegment s = false ∧
    isOptionalSegment s = false))

/-- Claim C5: the empty path is rejected with `EMPTY_PATH`; each
dot-delimited segment is looked up left to right in the current attribute
map, starting at the resource's top-level attributes and descending into
object shapes — an object attribute `a` with shape `{b}` makes `a.b` valid
with the attribute stored under `b`, while `a.c` fails with
`ATTRIBUTE_NOT_FOUND`; a `?` suffix is stripped before lookup; and
descending through a primitive attribute with segments remaining fails with
`CANNOT_NAVIGATE_PRIMITIVE`. -/
theorem validatePath_segments_spec :
    (∀ r : Resource, doValidatePath r "" =
      { valid := false, error := some EMPTY_PATH_MSG }) ∧
    (∀ (r : Resource) (a b : String) (shape : List (String × Attr)) (t : Attr),
      PlainSeg a → PlainSeg b →
      recordGet r.attributes a = some (.object shape) →
      recordGet shape b = some t →
      doValidatePath r (a ++ "." ++ b) =
        { valid := true, parentAttribute := some (.object shape),
          lastValidSegment := some b, attributeName := some b,
          fullPath := some (a ++ "." ++ b), attributeFound := some t }) ∧
    (∀ (r : Resource) (a c : String) (shape : List (String × Attr)),
      PlainSeg a → PlainSeg c →
      recordGet r.attributes a = some (.object shape) →
      recordGet shape c = none →
      doValidatePath r (a ++ "." ++ c) =
        { valid := false, parentAttribute := some (.object shape),
          lastValidSegment := some a, attributeName := some a,
          fullPath := some a,
          error := some (ATTRIBUTE_NOT_FOUND_MSG c) }) ∧
    (∀ (r : Resource) (a : String) (attr : Attr),
      PlainSeg a →
      recordGet r.attributes a = some attr →
      doValidatePath r (a ++ "?") =
        { valid := true, parentAttribute := none,
          lastValidSegment := some (a ++ "?"), attributeName := some a,
          fullPath := some (a ++ "?"), attributeFound := some attr }) ∧
    (∀ (r : Resource) (a b : String) (tag : PrimType),
      PlainSeg a → PlainSeg b →
      recordGet r.attributes a = some (.prim tag) →
      doValidatePath r (a ++ "." ++ b) =
        { valid := false, parentAttribute := some (.prim tag),
          lastValidSegment := some a, attributeName := some a,
          fullPath := some a,
          error := some (CANNOT_NAVIGATE_PRIMITIVE_MSG a) }) := by
  refine ⟨fun r => rfl, ?_, ?_, ?_, ?_⟩
  · intro r a b shape t ha hb hga hgb
    obtain ⟨hane, hadf, haar, haop⟩ := ha
    obtain ⟨hbne, hbdf, hbar, hbop⟩ := hb
    have hpne : a ++ "." ++ b ≠ "" :=
      string_append_ne_empty_left (string_append_ne_empty_left hane)
    have hsplit := splitOnDot_two hadf hbdf
    simp only [doValidatePath, if_neg hpne, hsplit]
    rw [runSegments_step a [b] _ (Nat.lt_succ_self _), if_neg hane]
    simp only [processSegment, haar, Bool.false_eq_true, if_false,
      removeOptionalMarker, haop, hga, List.isEmpty_cons]
    rw [runSegments_step b [] _ (Nat.lt_succ_self _), if_neg hbne]
    simp only [processSegment, hbar, Bool.false_eq_true, if_false,
      removeOptionalMarker, hbop, hgb, List.isEmpty_nil, if_neg hane]
    simp [hane]
  · intro r a c shape ha hc hga hgc
    obtain ⟨hane, hadf, haar, haop⟩ := ha
    obtain ⟨hcne, hcdf, hcar, hcop⟩ := hc
    have hpne : a ++ "." ++ c ≠ "" :=
      string_append_ne_empty_left (string_append_ne_empty_left hane)
    have hsplit := splitOnDot_two hadf hcdf
    simp only [doValidatePath, if_neg hpne, hsplit]
    rw [runSegments_step a [c] _ (Nat.lt_succ_self _), if_neg hane]
    simp only [processSegment, haar, Bool.false_eq_true, if_false,
      removeOptionalMarker, haop, hga, List.isEmpty_cons]
    rw [runSegments_step c [] _ (Nat.lt_succ_self _), if_neg hcne]
    simp only [processSegment, hcar, Bool.false_eq_true, if_false,
      removeOptionalMarker, hcop, hgc, List.isEmpty_nil]
    simp [hane, strDropRight_dot_append]
  · intro r a attr ha hga
    obtain ⟨hane, hadf, haar, haop⟩ := ha
    have hqne : a ++ "?" ≠ "" := string_append_ne_empty_left hane
    have hdfq : DotFree (a ++ "?") := DotFree_append hadf (by decide)
    have hsplit : splitOnDot (a ++ "?") = [a ++ "?"] := splitOnDot_dotfree hdfq
    have hdrop : strDropRight (a ++ "?") 1 = a := strDropRight_marker a "?"
    have hopt : isOptionalSegment (a ++ "?") = true := strEndsWith_append a "?"
    have harr : isArraySegment (a ++ "?") = false := strEndsWith_q_brackets a
    simp only [doValidatePath, if_neg hqne, hsplit]
    rw [runSegments_step (a ++ "?") [] _ (Nat.lt_succ_self _), if_neg hqne]
    simp only [processSegment, harr, Bool.false_eq_true, if_false,
      removeOptionalMarker, hopt, if_true, hdrop, hga, List.isEmpty_nil]
  · intro r a b tag ha hb hga
    obtain ⟨hane, hadf, haar, haop⟩ := ha
    obtain ⟨hbne, hbdf, hbar, hbop⟩ := hb
    have hpne : a ++ "." ++ b ≠ "" :=
      string_append_ne_empty_left (string_append_ne_empty_left hane)
    have hsplit := splitOnDot_two hadf hbdf
    simp only [doValidatePath, if_neg hpne, hsplit]
    rw [runSegments_step a [b] _ (Nat.lt_succ_self _), if_neg hane]
    simp only [processSegment, haar, Bool.false_eq_true, if_false,
      removeOptionalMarker, haop, hga, List.isEmpty_cons]
    simp [hane]

/-- Concrete resource exercising every conjunct of the C5 theorem. -/
def c5res : Resource :=
  ⟨"doc", [("a", .object [("b", .prim .string)]), ("p", .prim .number)]⟩

/-- Witness for claim C5 at a concrete resource. -/
theorem validatePath_segments_spec_witness :
    doValidatePath c5res "" = { valid := false, error := some EMPTY_PATH_MSG } ∧
    doValidatePath c5res ("a" ++ "." ++ "b") =
      { valid := true, parentAttribute := some (.object [("b", .prim .string)]),
        lastValidSegment := some "b", attributeName := some "b",
        fullPath := some ("a" ++ "." ++ "b"),
        attributeFound := some (.prim .string) } ∧
    doValidatePath c5res ("a" ++ "." ++ "c") =
      { valid := false, parentAttribute := some (.object [("b", .prim .string)]),
        lastValidSegment := some "a", attributeName := some "a",
        fullPath := some "a", error := some (ATTRIBUTE_NOT_FOUND_MSG "c") } ∧
    doValidatePath c5res ("a" ++ "?") =
      { valid := true, parentAttribute := none,
        lastValidSegment := some ("a" ++ "?"), attributeName := some "a",
        fullPath := some ("a" ++ "?"),
        attributeFound := some (.object [("b", .prim .string)]) } ∧
    doValidatePath c5res ("p" ++ "." ++ "b") =
      { valid := false, parentAttribute := some (.prim .number),
        lastValidSegment := some "p", attributeName := some "p",
        fullPath := some "p",
        error := some (CANNOT_NAVIGATE_PRIMITIVE_MSG "p") } :=
  ⟨validatePath_segments_spec.1 c5res,
   validatePath_segments_spec.2.1 c5res "a" "b" _ _ (by decide) (by decide) rfl rfl,
   validatePath_segments_spec.2.2.1 c5res "a" "c" _ (by decide) (by decide) rfl rfl,
   validatePath_segments_spec.2.2.2.1 c5res "a" _ (by decide) rfl,
   validatePath_segments_spec.2.2.2.2 c5res "p" "b" .number (by decide) (by decide) rfl⟩

/-- Claim C6: a segment ending in the array marker resolves only against an
array-typed attribute of the stripped name — as last segment it validates to
the array attribute, a non-array attribute of that name fails with
`NOT_ARRAY` — and when the array segment is not last, traversal descends
into the item type only if it is an object attribute, failing with
`ARRAY_ITEMS_NOT_OBJECTS` otherwise; in particular
`array(object({name}))` makes `items[].name` valid. -/
theorem validatePath_array_spec :
    (∀ (r : Resource) (a : String) (itemType : Attr),
      DotFree a →
      recordGet r.attributes a = some (.array itemType) →
      doValidatePath r (a ++ "[]") =
        { valid := true, parentAttribute := none,
          lastValidSegment := some (a ++ "[]"), attributeName := some a,
          fullPath := some (a ++ "[]"),
          attributeFound := some (.array itemType) }) ∧
    (∀ (r : Resource) (a : String) (attr : Attr),
      DotFree a →
      recordGet r.attributes a = some attr →
      (∀ it, attr ≠ .array it) →
      doValidatePath r (a ++ "[]") =
        { valid := false, parentAttribute := none,
          lastValidSegment := some "", attributeName := some "",
          fullPath := some "", error := some (NOT_ARRAY_MSG a) }) ∧
    (∀ (r : Resource) (a b : String) (itemType : Attr),
      DotFree a → DotFree b →
      recordGet r.attributes a = some (.array itemType) →
      (∀ sh, itemType ≠ .object sh) →
      doValidatePath r (a ++ "[]" ++ "." ++ b) =
        { valid := false, parentAttribute := some (.array itemType),
          lastValidSegment := some (a ++ "[]"), attributeName := some a,
          fullPath := some (a ++ "[]"),
          error := some ARRAY_ITEMS_NOT_OBJECTS_MSG }) ∧
    (∀ (r : Resource) (a b : String) (shape : List (String × Attr)) (t : Attr),
      DotFree a → PlainSeg b →
      recordGet r.attributes a = some (.array (.object shape)) →
      recordGet shape b = some t →
      doValidatePath r (a ++ "[]" ++ "." ++ b) =
        { valid := true, parentAttribute := some (.array (.object shape)),
          lastValidSegment := some b, attributeName := some b,
          fullPath := some (a ++ "[]" ++ "." ++ b),
          attributeFound := some t }) := by
  have hbrne : ("[]" : String) ≠ "" := by decide
  have hbrdf : DotFree ("[]" : String) := by decide
  refine ⟨?_, ?_, ?_, ?_⟩
  · intro r a itemType hadf hga
    have hsne : a ++ "[]" ≠ "" := string_append_ne_empty_right hbrne
    have hsdf : DotFree (a ++ "[]") := DotFree_append hadf hbrdf
    have harr : isArraySegment (a ++ "[]") = true := strEndsWith_append a "[]"
    have hdrop : strDropRight (a ++ "[]") 2 = a := strDropRight_marker a "[]"
    simp only [doValidatePath, if_neg hsne, splitOnDot_dotfree hsdf]
    rw [runSegments_step (a ++ "[]") [] _ (Nat.lt_succ_self _), if_neg hsne]
    simp only [processSegment, harr, if_true, processArraySegment,
      removeArrayMarker, hdrop, hga, List.isEmpty_nil]
  · intro r a attr hadf hga hna
    have hsne : a ++ "[]" ≠ "" := string_append_ne_empty_right hbrne
    have hsdf : DotFree (a ++ "[]") := DotFree_append hadf hbrdf
    have harr : isArraySegment (a ++ "[]") = true := strEndsWith_append a "[]"
    have hdrop : strDropRight (a ++ "[]") 2 = a := strDropRight_marker a "[]"
    rcases attr with tag | sh | it | ⟨d, cs⟩
    · simp only [doValidatePath, if_neg hsne, splitOnDot_dotfree hsdf]
      rw [runSegments_step (a ++ "[]") [] _ (Nat.lt_succ_self _), if_neg hsne]
      simp only [processSegment, harr, if_true, processArraySegment,
        removeArrayMarker, hdrop, hga]
    · simp only [doValidatePath, if_neg hsne, splitOnDot_dotfree hsdf]
      rw [runSegments_step (a ++ "[]") [] _ (Nat.lt_succ_self _), if_neg hsne]
      simp only [processSegment, harr, if_true, processArraySegment,
        removeArrayMarker, hdrop, hga]
    · exact absurd rfl (hna it)
    · simp only [doValidatePath, if_neg hsne, splitOnDot_dotfree hsdf]
      rw [runSegments_step (a ++ "[]") [] _ (Nat.lt_succ_self _), if_neg hsne]
      simp only [processSegment, harr, if_true, processArraySegment,
        removeArrayMarker, hdrop, hga]
  · intro r a b itemType hadf hbdf hga hno
    have hsne : a ++ "[]" ≠ "" := string_append_ne_empty_right hbrne
    have hsdf : DotFree (a ++ "[]") := DotFree_append hadf hbrdf
    have harr : isArraySegment (a ++ "[]") = true := strEndsWith_append a "[]"
    have hdrop : strDropRight (a ++ "[]") 2 = a := strDropRight_marker a "[]"
    have hpne : a ++ "[]" ++ "." ++ b ≠ "" :=
      string_append_ne_empty_left (string_append_ne_empty_left hsne)
    simp only [doValidatePath, if_neg hpne, splitOnDot_two hsdf hbdf]
    rw [runSegments_step (a ++ "[]") [b] _ (Nat.lt_succ_self _), if_neg hsne]
    rcases itemType with tag | sh | it | ⟨d, cs⟩
    · simp only [processSegment, harr, if_true, processArraySegment,
        removeArrayMarker, hdrop, hga, List.isEmpty_cons]
      simp
    · exact absurd rfl (hno sh)
    · simp only [processSegment, harr, if_true, processArraySegment,
        removeArrayMarker, hdrop, hga, List.isEmpty_cons]
      simp
    · simp only [processSegment, harr, if_true, processArraySegment,
        removeArrayMarker, hdrop, hga, List.isEmpty_cons]
      simp
  · intro r a b shape t hadf hb hga hgb
    obtain ⟨hbne, hbdf, hbar, hbop⟩ := hb
    have hsne : a ++ "[]" ≠ "" := string_append_ne_empty_right hbrne
    have hsdf : DotFree (a ++ "[]") := DotFree_append hadf hbrdf
    have harr : isArraySegment (a ++ "[]") = true := strEndsWith_append a "[]"
    have hdrop : strDropRight (a ++ "[]") 2 = a := strDropRight_marker a "[]"
    have hpne : a ++ "[]" ++ "." ++ b ≠ "" :=
      string_append_ne_empty_left (string_append_ne_empty_left hsne)
    simp only [doValidatePath, if_neg hpne, splitOnDot_two hsdf hbdf]
    rw [runSegments_step (a ++ "[]") [b] _ (Nat.lt_succ_self _), if_neg hsne]
    simp only [processSegment, harr, if_true, processArraySegment,
      removeArrayMarker, hdrop, hga, List.isEmpty_cons, Bool.false_eq_true,
      if_false]
    rw [runSegments_step b [] _ (Nat.lt_succ_self _), if_neg hbne]
    simp only [processSegment, hbar, Bool.false_eq_true, if_false,
      removeOptionalMarker, hbop, hgb, List.isEmpty_nil]
    simp [hsne]

/-- Concrete resource exercising every conjunct of the C6 theorem. -/
def c6res : Resource :=
  ⟨"list", [("items", .array (.object [("name", .prim .string)])),
            ("n", .prim .number),
            ("nums", .array (.prim .number))]⟩

/-- Witness for claim C6 at a concrete resource. -/
theorem validatePath_array_spec_witness :
    doValidatePath c6res ("items" ++ "[]") =
      { valid := true, parentAttribute := none,
        lastValidSegment := some ("items" ++ "[]"), attributeName := some "items",
        fullPath := some ("items" ++ "[]"),
        attributeFound := some (.array (.object [("name", .prim .string)])) } ∧
    doValidatePath c6res ("n" ++ "[]") =
      { valid := false, parentAttribute := none,
        lastValidSegment := some "", attributeName := some "",
        fullPath := some "", error := some (NOT_ARRAY_MSG "n") } ∧
    doValidatePath c6res ("nums" ++ "[]" ++ "." ++ "x") =
      { valid := false, parentAttribute := some (.array (.prim .number)),
        lastValidSegment := some ("nums" ++ "[]"), attributeName := some "nums",
        fullPath := some ("nums" ++ "[]"),
        error := some ARRAY_ITEMS_NOT_OBJECTS_MSG } ∧
    doValidatePath c6res ("items" ++ "[]" ++ "." ++ "name") =
      { valid := true,
        parentAttribute := some (.array (.object [("name", .prim .string)])),
        lastValidSegment := some "name", attributeName := some "name",
        fullPath := some ("items" ++ "[]" ++ "." ++ "name"),
        attributeFound := some (.prim .string) } :=
  ⟨validatePath_array_spec.1 c6res "items" _ (by decide) rfl,
   validatePath_array_spec.2.1 c6res "n" _ (by decide) rfl
     (fun it h => nomatch h),
   validatePath_array_spec.2.2.1 c6res "nums" "x" _ (by decide) (by decide) rfl
     (fun sh h => nomatch h),
   validatePath_array_spec.2.2.2 c6res "items" "name" _ _ (by decide) (by decide)
     rfl rfl⟩

/-- Claim C7: reaching a discriminated one-of with segments remaining, a
next segment equal to the discriminator key is consumed and the remaining
path is searched in every case's object shape, returning the first case in
which it validates; a next segment different from the discriminator is
searched in every case's shape directly; and when no case matches, the
result is invalid with `NOT_FOUND_IN_ONEOF` — all expressed by equating the
traversal with the first-match case search over `validatePathInShape`. -/
theorem validatePath_oneOf_spec :
    (∀ (r : Resource) (s0 d f : String) (cases : List Attr),
      PlainSeg s0 → PlainSeg d → f ≠ "" → DotFree f →
      recordGet r.attributes s0 = some (.oneOf d cases) →
      doValidatePath r (s0 ++ "." ++ d ++ "." ++ f) =
        match cases.findSome? (fun caseObj =>
          match caseObj with
          | .object sh =>
            if (validatePathInShape sh f (.object sh)).valid then
              some (validatePathInShape sh f (.object sh))
            else none
          | _ => none) with
        | some res =>
          { valid := true, parentAttribute := res.parentAttribute,
            lastValidSegment := some (res.lastValidSegment.getD ""),
            attributeName := some (res.attributeName.getD ""),
            fullPath := some (s0 ++ "." ++ d ++ "." ++ f),
            attributeFound := res.attributeFound }
        | none =>
          { valid := false, parentAttribute := some (.oneOf d cases),
            lastValidSegment := some d, attributeName := some d,
            fullPath := some (s0 ++ "." ++ d),
            error := some NOT_FOUND_IN_ONEOF_MSG }) ∧
    (∀ (r : Resource) (s0 disc f : String) (cases : List Attr),
      PlainSeg s0 → f ≠ "" → DotFree f → f ≠ disc →
      recordGet r.attributes s0 = some (.oneOf disc cases) →
      doValidatePath r (s0 ++ "." ++ f) =
        match cases.findSome? (fun caseObj =>
          match caseObj with
          | .object sh =>
            if (validatePathInShape sh f (.object sh)).valid then
              some (validatePathInShape sh f (.object sh))
            else none
          | _ => none) with
        | some res =>
          { valid := true, parentAttribute := res.parentAttribute,
            lastValidSegment := some (res.lastValidSegment.getD ""),
            attributeName := some (res.attributeName.getD ""),
            fullPath := some (s0 ++ "." ++ f),
            attributeFound := res.attributeFound }
        | none =>
          { valid := false, parentAttribute := some (.oneOf disc cases),
            lastValidSegment := some s0, attributeName := some s0,
            fullPath := some s0,
            error := some NOT_FOUND_IN_ONEOF_MSG }) ∧
    (∀ (r : Resource) (s0 d : String) (cases : List Attr),
      PlainSeg s0 → PlainSeg d →
      recordGet r.attributes s0 = some (.oneOf d cases) →
      doValidatePath r (s0 ++ "." ++ d) =
        { valid := true, parentAttribute := some (.oneOf d cases),
          lastValidSegment := some d, attributeName := some d,
          fullPath := some (s0 ++ "." ++ d),
          attributeFound := some (.oneOf d cases) }) := by
  refine ⟨?_, ?_, ?_⟩
  · intro r s0 d f cases hs0 hd hfne hfdf hget
    obtain ⟨hs0ne, hs0df, hs0ar, hs0op⟩ := hs0
    obtain ⟨hdne, hddf, hdar, hdop⟩ := hd
    have hpne : s0 ++ "." ++ d ++ "." ++ f ≠ "" :=
      string_append_ne_empty_left (string_append_ne_empty_left
        (string_append_ne_empty_left (string_append_ne_empty_left hs0ne)))
    have hsplit := splitOnDot_three hs0df hddf hfdf
    simp only [doValidatePath, if_neg hpne, hsplit]
    rw [runSegments_step s0 [d, f] _ (Nat.lt_succ_self _), if_neg hs0ne]
    have hbound : muSegs (splitOnDot f) < muSegs [d, f] + s0.length := by
      rw [muSegs_splitOnDot]
      have h2 := muSegs_cons d [f]
      have h3 := muSegs_cons f []
      have h4 : muSegs ([] : List String) = 0 := rfl
      omega
    have hf1 : ∀ c, runSegments (muSegs [d, f] + s0.length) (splitOnDot f) c
        = runSegments (muSegs (splitOnDot f) + 1) (splitOnDot f) c :=
      fun c => runSegments_congr hbound (Nat.lt_succ_self _)
    simp only [processSegment, hs0ar, Bool.false_eq_true, if_false,
      removeOptionalMarker, hs0op, hget, List.isEmpty_cons, List.head?_cons,
      Option.getD_some, List.tail_cons, joinDot, if_neg hdne, hf1,
      validatePathInShape]
    simp [hdne]
  · intro r s0 disc f cases hs0 hfne hfdf hfd hget
    obtain ⟨hs0ne, hs0df, hs0ar, hs0op⟩ := hs0
    have hpne : s0 ++ "." ++ f ≠ "" :=
      string_append_ne_empty_left (string_append_ne_empty_left hs0ne)
    have hsplit := splitOnDot_two hs0df hfdf
    simp only [doValidatePath, if_neg hpne, hsplit]
    rw [runSegments_step s0 [f] _ (Nat.lt_succ_self _), if_neg hs0ne]
    have hbound : muSegs (splitOnDot f) < muSegs [f] + s0.length := by
      rw [muSegs_splitOnDot]
      have h3 := muSegs_cons f []
      have h4 : muSegs ([] : List String) = 0 := rfl
      have h5 := string_length_pos hs0ne
      omega
    have hf1 : ∀ c, runSegments (muSegs [f] + s0.length) (splitOnDot f) c
        = runSegments (muSegs (splitOnDot f) + 1) (splitOnDot f) c :=
      fun c => runSegments_congr hbound (Nat.lt_succ_self _)
    simp only [processSegment, hs0ar, Bool.false_eq_true, if_false,
      removeOptionalMarker, hs0op, hget, List.isEmpty_cons, List.head?_cons,
      Option.getD_some, List.tail_cons, joinDot, if_neg hfne, if_neg hfd, hf1,
      validatePathInShape]
    simp [hfne, hfd]
  · intro r s0 d cases hs0 hd hget
    obtain ⟨hs0ne, hs0df, hs0ar, hs0op⟩ := hs0
    obtain ⟨hdne, hddf, hdar, hdop⟩ := hd
    have hpne : s0 ++ "." ++ d ≠ "" :=
      string_append_ne_empty_left (string_append_ne_empty_left hs0ne)
    have hsplit := splitOnDot_two hs0df hddf
    simp only [doValidatePath, if_neg hpne, hsplit]
    rw [runSegments_step s0 [d] _ (Nat.lt_succ_self _), if_neg hs0ne]
    simp only [processSegment, hs0ar, Bool.false_eq_true, if_false,
      removeOptionalMarker, hs0op, hget, List.isEmpty_cons, List.head?_cons,
      Option.getD_some, List.tail_cons, List.isEmpty_nil, if_neg hdne]
    simp [hdne]

/-- Concrete resource with a discriminated one-of attribute for the C7
witness. -/
def c7res : Resource :=
  ⟨"shape", [("s", .oneOf "type"
    [.object [("x", .prim .string)], .object [("y", .prim .number)]])]⟩

/-- Witness for claim C7 at a concrete one-of with two object cases. -/
theorem validatePath_oneOf_spec_witness :
    doValidatePath c7res ("s" ++ "." ++ "type" ++ "." ++ "x") =
      { valid := true, parentAttribute := some (.object [("x", .prim .string)]),
        lastValidSegment := some "x", attributeName := some "x",
        fullPath := some ("s" ++ "." ++ "type" ++ "." ++ "x"),
        attributeFound := some (.prim .string) } ∧
    doValidatePath c7res ("s" ++ "." ++ "y") =
      { valid := true, parentAttribute := some (.object [("y", .prim .number)]),
        lastValidSegment := some "y", attributeName := some "y",
        fullPath := some ("s" ++ "." ++ "y"),
        attributeFound := some (.prim .number) } ∧
    doValidatePath c7res ("s" ++ "." ++ "z") =
      { valid := false,
        parentAttribute := some (.oneOf "type"
          [.object [("x", .prim .string)], .object [("y", .prim .number)]]),
        lastValidSegment := some "s", attributeName := some "s",
        fullPath := some "s", error := some NOT_FOUND_IN_ONEOF_MSG } ∧
    doValidatePath c7res ("s" ++ "." ++ "type") =
      { valid := true,
        parentAttribute := some (.oneOf "type"
          [.object [("x", .prim .string)], .object [("y", .prim .number)]]),
        lastValidSegment := some "type", attributeName := some "type",
        fullPath := some ("s" ++ "." ++ "type"),
        attributeFound := some (.oneOf "type"
          [.object [("x", .prim .string)], .object [("y", .prim .number)]]) } :=
  ⟨(validatePath_oneOf_spec.1 c7res "s" "type" "x" _ (by decide) (by decide)
      (by decide) (by decide) rfl).trans rfl,
   (validatePath_oneOf_spec.2.1 c7res "s" "type" "y" _ (by decide) (by decide)
      (by decide) (by decide) rfl).trans rfl,
   (validatePath_oneOf_spec.2.1 c7res "s" "type" "z" _ (by decide) (by decide)
      (by decide) (by decide) rfl).trans rfl,
   validatePath_oneOf_spec.2.2 c7res "s" "type" _ (by decide) (by decide) rfl⟩

end RestKit
